import Mathlib

/-!
Verification of the batch-merge, deduplication and structural-metric logic of a
knowledge-graph generation pipeline.  The definitions below are shallow
embeddings of the Python functions in `src/kg_generation/postprocess.py` and
`src/evaluation/structural_evaluation.py`; the theorems settle the frozen
claims about that code.
-/

namespace KGSpec

/-- Python `str.isdigit`: the string is nonempty and every character is a digit. -/
def strIsDigit (s : String) : Bool :=
  !s.data.isEmpty && s.data.all Char.isDigit

/-- Python `int` applied to a digit string: its decimal value. -/
def strToNat (s : String) : Nat :=
  s.data.foldl (fun a c => a * 10 + (c.toNat - 48)) 0

/-- Python dict lookup: first value bound to key `k` in an association list. -/
def assocGet {κ α : Type} [DecidableEq κ] : List (κ × α) → κ → Option α
  | [], _ => none
  | kv :: rest, k => if kv.1 = k then some kv.2 else assocGet rest k

/-- Python dict assignment: replace the first binding of `k`, or append a new one. -/
def assocSet {κ α : Type} [DecidableEq κ] : List (κ × α) → κ → α → List (κ × α)
  | [], k, v => [(k, v)]
  | kv :: rest, k, v => if kv.1 = k then (k, v) :: rest else kv :: assocSet rest k v

/-- Python `mapping[k].append(x)` with `mapping.setdefault(k, [])`: extend the
bucket of `k` in place, creating it at the end when absent. -/
def assocAppend {κ α : Type} [DecidableEq κ] : List (κ × List α) → κ → α → List (κ × List α)
  | [], k, x => [(k, [x])]
  | kv :: rest, k, x =>
    if kv.1 = k then (kv.1, kv.2 ++ [x]) :: rest else kv :: assocAppend rest k x

/-- A graph node as serialized by the pipeline: string id, labels, properties. -/
structure Node where
  id : String
  labels : List String
  properties : List (String × String)
deriving DecidableEq

/-- A graph relationship: a type name and two node-id endpoints. -/
structure Rel where
  type : String
  startNode : String
  endNode : String
deriving DecidableEq

/-- A (batch or merged) knowledge graph. -/
structure Graph where
  nodes : List Node
  relationships : List Rel
deriving DecidableEq

/-- The `max(int(node.id) for node in new_node_list if node.id.isdigit())`
computation of `clean_graph`, as a fold with base value `0`. -/
def maxIntId (nodes : List Node) : Nat :=
  (nodes.filterMap (fun n => if strIsDigit n.id then some (strToNat n.id) else none)).foldl
    max 0

/-- One iteration of the node loop of `clean_graph`'s else-branch: state is
(next fresh id, batch-local id mapping, nodes appended so far).  A digit id is
replaced by the next fresh id and the mapping is recorded; other ids pass
through. -/
def stepNode (st : Nat × List (Nat × Nat) × List Node) (n : Node) :
    Nat × List (Nat × Nat) × List Node :=
  if strIsDigit n.id then
    (st.1 + 1, assocSet st.2.1 (strToNat n.id) st.1,
      st.2.2 ++ [{ n with id := toString st.1 }])
  else
    (st.1, st.2.1, st.2.2 ++ [n])

/-- Endpoint rewriting in `clean_graph`:
`str(id_mapping.get(int(x), x)) if x.isdigit() else x`. -/
def rewriteId (mapping : List (Nat × Nat)) (s : String) : String :=
  if strIsDigit s then
    match assocGet mapping (strToNat s) with
    | some v => toString v
    | none => s
  else s

/-- Merge one later batch into the accumulated graph (the else-branch of the
batch loop in `clean_graph`). -/
def mergeStep (acc batch : Graph) : Graph :=
  let st := batch.nodes.foldl stepNode (maxIntId acc.nodes + 1, [], [])
  { nodes := acc.nodes ++ st.2.2,
    relationships := acc.relationships ++ batch.relationships.map (fun r =>
      { r with startNode := rewriteId st.2.1 r.startNode,
               endNode := rewriteId st.2.1 r.endNode }) }

/-- The `clean_graph` batch merge: batch 0 seeds the accumulator unchanged and
each later batch is folded in by `mergeStep`. -/
def clean_graph : List Graph → Graph
  | [] => ⟨[], []⟩
  | b :: bs => bs.foldl mergeStep b

/-- Reference integrity: every relationship endpoint is the id of some node of
the graph.  Applied to a single batch it is the hypothesis of claim C1, applied
to the accumulator it is the invariant. -/
def GraphOK (g : Graph) : Prop :=
  ∀ r ∈ g.relationships,
    (∃ n ∈ g.nodes, n.id = r.startNode) ∧ (∃ n ∈ g.nodes, n.id = r.endNode)

instance (g : Graph) : Decidable (GraphOK g) := by
  unfold GraphOK; exact inferInstance

/-- Follows the spec's words for claim C2: digit-string ids of a later batch
are reassigned consecutively starting at `next` while non-numeric ids pass
through unchanged. -/
def specRenumber (next : Nat) : List Node → List Node
  | [] => []
  | n :: rest =>
    if strIsDigit n.id then
      { n with id := toString next } :: specRenumber (next + 1) rest
    else n :: specRenumber next rest

/-- Concrete batch 0 of the C2 scenario: nodes with ids "0" and "1". -/
def batchW0 : Graph := ⟨[⟨"0", [], []⟩, ⟨"1", [], []⟩], []⟩

/-- Concrete batch 1 of the C2 scenario: nodes "0" and "1" plus a relationship
from "0" to "1". -/
def batchW1 : Graph := ⟨[⟨"0", [], []⟩, ⟨"1", [], []⟩], [⟨"rel", "0", "1"⟩]⟩

/-- A relationship record of the ontology: description plus endpoint names. -/
structure RelRec where
  description : String
  source : String
  target : String
deriving DecidableEq

/-- The `is_duplicate` check of `postprocess.py`: walk the stored descriptions
in insertion order and report a duplicate at the first one whose cosine
similarity with the new description exceeds 0.55.  The similarity oracle
`sim` abstracts `cosine_similarity` over the embedding cache. -/
def is_duplicate (sim : String → String → ℚ) : List String → String → Bool
  | [], _ => false
  | d :: ds, nd => if sim d nd > 11 / 20 then true else is_duplicate sim ds nd

/-- The relationship-merging step of `clean_ontology` for one incoming record
(after its description has been lowercased): a new type name starts a fresh
bucket; under an existing name an exactly-equal description is dropped, an
`is_duplicate` description is dropped, and otherwise the record is appended. -/
def addRelationDescription (sim : String → String → ℚ)
    (relations : List (String × List RelRec)) (name descr src tgt : String) :
    List (String × List RelRec) :=
  match assocGet relations name with
  | none => assocSet relations name [⟨descr, src, tgt⟩]
  | some recs =>
    if descr ∈ recs.map RelRec.description then relations
    else if is_duplicate sim (recs.map RelRec.description) descr then relations
    else assocSet relations name (recs ++ [⟨descr, src, tgt⟩])

/-- Concrete relations accumulator used by the C5 witness. -/
def relsW : List (String × List RelRec) :=
  [("locatedIn", [⟨"a place contains another", "Place", "Place"⟩])]

/-- Python `str.split()` (split on whitespace runs, dropping empty words),
accumulating the current word in reverse. -/
def splitWsAux : List Char → List Char → List (List Char)
  | [], cur => if cur.isEmpty then [] else [cur.reverse]
  | c :: rest, cur =>
    if c.isWhitespace then
      if cur.isEmpty then splitWsAux rest [] else cur.reverse :: splitWsAux rest []
    else splitWsAux rest (c :: cur)

/-- Python `str.split()` with no arguments, on a character list. -/
def splitWs (cs : List Char) : List (List Char) := splitWsAux cs []

/-- Python `str.capitalize`: first character uppercased, the rest lowercased. -/
def pyCapitalize : List Char → List Char
  | [] => []
  | c :: rest => c.toUpper :: rest.map Char.toLower

/-- The word mapper of `_replace_nonchar`:
`word.capitalize() if word[0].islower() else word`. -/
def capWord (w : List Char) : List Char :=
  match w with
  | [] => []
  | c :: _ => if c.isLower then pyCapitalize w else w

/-- The `_replace_nonchar` normalization of `postprocess.py`: hyphens and
underscores become spaces and newlines are removed; when the result contains a
space the whitespace-separated words are joined after applying `capWord`,
otherwise the string is returned as is. -/
def _replace_nonchar (s : String) : String :=
  let cs := (s.data.map (fun c => if c = '-' ∨ c = '_' then ' ' else c)).filter
    (fun c => c ≠ '\n')
  if cs.contains ' ' then String.mk (((splitWs cs).map capWord).flatten)
  else String.mk cs

/-- A JSON-like Python value as stored in the ontology entity tree: nested
dicts (association lists preserving insertion order) or strings. -/
inductive PyVal where
  | str : String → PyVal
  | dict : List (String × PyVal) → PyVal

/-- Key lookup in a Python dict value (`'k' in d` and `d['k']`). -/
def lookupPV : List (String × PyVal) → String → Option PyVal
  | [], _ => none
  | (k, v) :: rest, key => if k = key then some v else lookupPV rest key

/-- Occurrence of `pat` at the start of a character list. -/
def charsStart : List Char → List Char → Bool
  | [], _ => true
  | _ :: _, [] => false
  | p :: ps, c :: cs => p == c && charsStart ps cs

/-- Python substring test `pat in s`, on character lists. -/
def charsContain (pat : List Char) : List Char → Bool
  | [] => charsStart pat []
  | c :: rest => charsStart pat (c :: rest) || charsContain pat rest

/-- The `'Other' in key` test of `get_entities_onto`. -/
def hasOtherMarker (key : String) : Bool := charsContain "Other".data key.data

/-- The `get_entities_onto` traversal of `structural_evaluation.py`: each key
with a dict value is counted and collected; when the value has a
`childrenEntities` key the traversal recurses into it (a non-dict
`childrenEntities` value, on which Python would raise, contributes nothing),
and otherwise a key containing the marker `Other` additionally has every key
of its value counted and collected one level deep. -/
def get_entities_onto : List (String × PyVal) → List String × Nat
  | [] => ([], 0)
  | (key, value) :: rest =>
    match value with
    | .str _ => get_entities_onto rest
    | .dict d =>
      let tail := get_entities_onto rest
      match hlk : lookupPV d "childrenEntities" with
      | some (.dict cd) =>
        let sub := get_entities_onto cd
        (key :: (sub.1 ++ tail.1), 1 + (sub.2 + tail.2))
      | some (.str _) => (key :: tail.1, 1 + tail.2)
      | none =>
        if hasOtherMarker key then
          (key :: (d.map Prod.fst ++ tail.1), 1 + (d.length + tail.2))
        else (key :: tail.1, 1 + tail.2)
termination_by l => sizeOf l
decreasing_by
  all_goals simp_wf
  have hsz : ∀ (l : List (String × PyVal)) (v : PyVal),
      lookupPV l "childrenEntities" = some v → sizeOf v < sizeOf l := by
    intro l v h
    induction l with
    | nil => simp [lookupPV] at h
    | cons kv rest ih =>
      obtain ⟨k0, v0⟩ := kv
      rw [lookupPV] at h
      by_cases hk : k0 = "childrenEntities"
      · simp only [hk, if_true] at h
        injection h with h
        subst h
        simp
        omega
      · simp only [hk, if_false] at h
        have := ih h
        simp
        omega
  have := hsz d (.dict cd) hlk
  simp at this
  omega

/-- The `get_properties_onto` traversal: whenever a `properties` key is found
its entries are counted and collected (a string value, on which Python's key
comprehension would raise, only adds its length to the count); any other dict
value is recursed into. -/
def get_properties_onto : List (String × PyVal) → List String × Nat
  | [] => ([], 0)
  | (key, value) :: rest =>
    let tail := get_properties_onto rest
    if key = "properties" then
      match value with
      | .dict d => (d.map Prod.fst ++ tail.1, d.length + tail.2)
      | .str s => (tail.1, s.length + tail.2)
    else
      match value with
      | .dict d =>
        let sub := get_properties_onto d
        (sub.1 ++ tail.1, sub.2 + tail.2)
      | .str _ => tail

/-- The `_get_parent_child_pairs` traversal: under a parent, every key
contributes a pair of (parent name, parent property names) and (child name,
child property names); recursion descends into `childrenEntities` carrying the
current key and its declared property names as the parent (the parent dict of
the Python pair is represented by its name). -/
def get_parent_child_pairs (entities : List (String × PyVal))
    (parent : Option (String × List String)) :
    List ((String × List String) × (String × List String)) :=
  match entities with
  | [] => []
  | (key, value) :: rest =>
    let childProps :=
      match value with
      | .dict d =>
        match lookupPV d "properties" with
        | some (.dict p) => p.map Prod.fst
        | _ => []
      | .str _ => []
    let here :=
      match parent with
      | some pr => [(pr, (key, childProps))]
      | none => []
    let deeper :=
      match value with
      | .dict d =>
        match hlk : lookupPV d "childrenEntities" with
        | some (.dict cd) => get_parent_child_pairs cd (some (key, childProps))
        | _ => []
      | .str _ => []
    here ++ (deeper ++ get_parent_child_pairs rest parent)
termination_by sizeOf entities
decreasing_by
  all_goals simp_wf
  have hsz : ∀ (l : List (String × PyVal)) (v : PyVal),
      lookupPV l "childrenEntities" = some v → sizeOf v < sizeOf l := by
    intro l v h
    induction l with
    | nil => simp [lookupPV] at h
    | cons kv rest ih =>
      obtain ⟨k0, v0⟩ := kv
      rw [lookupPV] at h
      by_cases hk : k0 = "childrenEntities"
      · simp only [hk, if_true] at h
        injection h with h
        subst h
        simp
        omega
      · simp only [hk, if_false] at h
        have := ih h
        simp
        omega
  have := hsz d (.dict cd) hlk
  simp at this
  omega

/-- Follows the spec's words for the amended claim C9: depth-first collection
of the keys with dict values, recursing into `childrenEntities` when present;
a key containing the marker `Other` whose value has no `childrenEntities` key
additionally contributes every key of its value one level deep.  The count is
derived as the length of the collected list. -/
def collectEntitiesSpec : List (String × PyVal) → List String
  | [] => []
  | (_, .str _) :: rest => collectEntitiesSpec rest
  | (key, .dict d) :: rest =>
    (key :: (match hlk : lookupPV d "childrenEntities" with
      | some (.dict cd) => collectEntitiesSpec cd
      | some (.str _) => []
      | none => if hasOtherMarker key then d.map Prod.fst else []))
    ++ collectEntitiesSpec rest
termination_by l => sizeOf l
decreasing_by
  all_goals simp_wf
  have hsz : ∀ (l : List (String × PyVal)) (v : PyVal),
      lookupPV l "childrenEntities" = some v → sizeOf v < sizeOf l := by
    intro l v h
    induction l with
    | nil => simp [lookupPV] at h
    | cons kv rest ih =>
      obtain ⟨k0, v0⟩ := kv
      rw [lookupPV] at h
      by_cases hk : k0 = "childrenEntities"
      · simp only [hk, if_true] at h
        injection h with h
        subst h
        simp
        omega
      · simp only [hk, if_false] at h
        have := ih h
        simp
        omega
  have := hsz d (.dict cd) hlk
  simp at this
  omega

/-- An ontology as consumed by the structural metrics: the (tree-shaped)
entity mapping and the relationships mapping. -/
structure Ontology where
  entities : List (String × PyVal)
  relationships : List (String × List RelRec)

/-- The `_check_if_class_in_onto` helper (default branch): the entity occurs
as source or target of some relationship record. -/
def check_if_class_in_onto (entity : String)
    (relations : List (String × List RelRec)) : Bool :=
  relations.any (fun kv => kv.2.any (fun d => d.source == entity || d.target == entity))

/-- `calculate_instantiated_class_ratio_onto` (default branch); `none` models
Python's `ZeroDivisionError` on an entity count of zero. -/
def calculate_instantiated_class_ratio_onto (o : Ontology) : Option ℚ :=
  let ec := get_entities_onto o.entities
  if ec.2 = 0 then none
  else some ((ec.1.countP (fun e => check_if_class_in_onto e o.relationships) : ℚ) / ec.2)

/-- The `_check_if_class_in_kg` helper (default branch): some node carries the
entity among its labels. -/
def check_if_class_in_kg (entity : String) (g : Graph) : Bool :=
  g.nodes.any (fun n => n.labels.contains entity)

/-- `calculate_instantiated_class_ratio_kg` (default branch); `none` models
Python's `ZeroDivisionError` on an entity count of zero. -/
def calculate_instantiated_class_ratio_kg (o : Ontology) (g : Graph) : Option ℚ :=
  let ec := get_entities_onto o.entities
  if ec.2 = 0 then none
  else some ((ec.1.countP (fun e => check_if_class_in_kg e g) : ℚ) / ec.2)

/-- The `_check_if_property_in_kg` helper: the property is present with a
truthy (non-empty) value on some node. -/
def check_if_property_in_kg (property : String) (g : Graph) : Bool :=
  g.nodes.any (fun n =>
    match assocGet n.properties property with
    | some v => v != ""
    | none => false)

/-- `calculate_instantiated_property_ratio` (default branch); `none` models
Python's `ZeroDivisionError` on a property count of zero. -/
def calculate_instantiated_property_ratio (o : Ontology) (g : Graph) : Option ℚ :=
  let pc := get_properties_onto o.entities
  if pc.2 = 0 then none
  else some ((pc.1.countP (fun p => check_if_property_in_kg p g) : ℚ) / pc.2)

/-- Python `len(set(child_props) - set(parent_props))`. -/
def newPropsCount (child parent : List String) : Nat :=
  (child.dedup.filter (fun c => !(parent.contains c))).length

/-- `calculate_subclass_property_acquisition`: new-property counts summed over
all parent/child pairs, divided by the total entity count; `none` models
Python's `ZeroDivisionError` on an entity count of zero. -/
def calculate_subclass_property_acquisition (o : Ontology) : Option ℚ :=
  let ec := get_entities_onto o.entities
  let pairs := get_parent_child_pairs o.entities none
  if ec.2 = 0 then none
  else some (((pairs.map (fun pr => newPropsCount pr.2.2 pr.1.2)).sum : ℚ) / ec.2)

/-- `calculate_subclass_property_acquisitionV2`: the same sum divided by the
number of parent/child pairs; `none` models Python's `ZeroDivisionError` on an
empty pair list. -/
def calculate_subclass_property_acquisitionV2 (o : Ontology) : Option ℚ :=
  let pairs := get_parent_child_pairs o.entities none
  if pairs.length = 0 then none
  else some (((pairs.map (fun pr => newPropsCount pr.2.2 pr.1.2)).sum : ℚ) / pairs.length)

/-- Entity tree of the C7 counterexample: one parent whose single child owns
five properties, so the acquisition average is 5/2. -/
def entC7 : List (String × PyVal) :=
  [("P", .dict [("childrenEntities", .dict [("C", .dict [("properties", .dict
    [("a", .str "t"), ("b", .str "t"), ("c", .str "t"), ("d", .str "t"),
     ("e", .str "t")])])])])]

/-- The C7 counterexample ontology. -/
def ontoC7 : Ontology := ⟨entC7, []⟩

/-- Entity tree of the C9 counterexample: an `Other` key whose value has both
a `childrenEntities` key and a plain key `B`. -/
def entC9 : List (String × PyVal) :=
  [("Other", .dict [("childrenEntities", .dict [("A", .dict [])]), ("B", .dict [])])]

/-- One-entity ontology used by the C7 amended witness. -/
def ontoW : Ontology :=
  ⟨[("A", .dict [])], [("rel", [⟨"links places", "A", "A"⟩])]⟩

/-- The empty ontology, a degenerate input for every metric. -/
def emptyOnto : Ontology := ⟨[], []⟩

/-- The empty graph. -/
def emptyGraph : Graph := ⟨[], []⟩

/-- The `name = node['properties'].get('name'); if name:` test of
`remove_duplicates_in_kg`: the identifying value when present and truthy. -/
def goodName (n : Node) : Option String :=
  match assocGet n.properties "name" with
  | some s => if s = "" then none else some s
  | none => none

/-- One iteration of the bucket-building loop of `remove_duplicates_in_kg`:
a node with a truthy identifying value appends its id to the value's bucket. -/
def stepMapping (acc : List (String × List String)) (n : Node) :
    List (String × List String) :=
  match goodName n with
  | some name => assocAppend acc name n.id
  | none => acc

/-- The `name_id_mapping` of `remove_duplicates_in_kg`: identifying value to
the ids of the nodes carrying it, in node order. -/
def buildMapping (nodes : List Node) : List (String × List String) :=
  nodes.foldl stepMapping []

/-- Python `min(ids, key=int)`: the first id of smallest integer value. -/
def minByInt (ids : List String) : String :=
  match ids with
  | [] => ""
  | x :: xs => xs.foldl (fun best i => if strToNat i < strToNat best then i else best) x

/-- Python `set.update` modelled as order-preserving insertion of the new
labels (only the resulting membership is ever asserted, since Python's set
iteration order is unspecified). -/
def setUpdate (s : List String) (new : List String) : List String :=
  new.foldl (fun acc l => if acc.contains l then acc else acc ++ [l]) s

/-- The property-merging loop of `remove_duplicates_in_kg`: first-seen wins,
and a later differing value clears the key to the empty string. -/
def mergeProps (acc : List (String × String)) (props : List (String × String)) :
    List (String × String) :=
  props.foldl (fun a pv =>
    match assocGet a pv.1 with
    | none => a ++ [pv]
    | some w => if w = pv.2 then a else assocSet a pv.1 "") acc

/-- Folding one looked-up bucket member into the canonical node being built. -/
def mergeNodeStep (acc node : Node) : Node :=
  { acc with labels := setUpdate acc.labels node.labels,
             properties := mergeProps acc.properties node.properties }

/-- The bucket-merging loop of `remove_duplicates_in_kg`: the canonical node
starts from the lowest id, empty labels and properties, and folds in every
bucket member, each looked up by id with `next(n for n in nodes ...)`. -/
def mergeBucket (nodes : List Node) (ids : List String) : Node :=
  ids.foldl (fun acc i =>
    match nodes.find? (fun n => n.id == i) with
    | some node => mergeNodeStep acc node
    | none => acc)
    { id := minByInt ids, labels := [], properties := [] }

/-- The `if relationship['startNode'] in ids` redirection of
`remove_duplicates_in_kg` for one bucket. -/
def redirectStart (kv : String × List String) (r : Rel) : Rel :=
  if kv.2.contains r.startNode then { r with startNode := minByInt kv.2 } else r

/-- The `if relationship['endNode'] in ids` redirection of
`remove_duplicates_in_kg` for one bucket, performed after the start check. -/
def redirectEnd (kv : String × List String) (r : Rel) : Rel :=
  if kv.2.contains r.endNode then { r with endNode := minByInt kv.2 } else r

/-- The relationship-endpoint rewriting loop of `remove_duplicates_in_kg` for
one relationship: every bucket of size at least two redirects matching
endpoints to its lowest id, `startNode` checked before `endNode`. -/
def rewriteRel (mapping : List (String × List String)) (r : Rel) : Rel :=
  mapping.foldl (fun r' kv =>
    if 1 < kv.2.length then redirectEnd kv (redirectStart kv r') else r') r

/-- The `duplicate_ids` set of `remove_duplicates_in_kg`: the union of the
buckets of size at least two. -/
def duplicateIds (mapping : List (String × List String)) : List String :=
  ((mapping.filter (fun kv => 1 < kv.2.length)).map Prod.snd).flatten

/-- `remove_duplicates_in_kg`: build the identifying-value buckets, merge
every bucket of size at least two into a canonical node stored in a dict
keyed by its lowest id, rewrite all relationship endpoints, drop every member
of a merged bucket from the node list and append the merged nodes. -/
def remove_duplicates_in_kg (g : Graph) : Graph :=
  let mapping := buildMapping g.nodes
  let merged := mapping.foldl (fun d kv =>
    if 1 < kv.2.length then assocSet d (minByInt kv.2) (mergeBucket g.nodes kv.2)
    else d) []
  let rels := g.relationships.map (rewriteRel mapping)
  let kept := g.nodes.filter (fun n => !((duplicateIds mapping).contains n.id))
  ⟨kept ++ merged.map Prod.snd, rels⟩

/-- The nodes of the list whose identifying value is `v` (the members of the
`v` bucket). -/
def membersOf (nodes : List Node) (v : String) : List Node :=
  nodes.filter (fun n => decide (goodName n = some v))

/-- The ids of the nodes whose identifying value is `v` (the contents of the
`v` bucket built by `buildMapping`). -/
def bucketOf (nodes : List Node) (v : String) : List String :=
  (membersOf nodes v).map Node.id

/-- First-occurrence order of the identifying values of a node list, given
the values already seen: the key order of `buildMapping`. -/
def freshKeys (seen : List String) : List Node → List String
  | [] => []
  | n :: rest =>
    match goodName n with
    | some v => if seen.contains v then freshKeys seen rest
                else v :: freshKeys (v :: seen) rest
    | none => freshKeys seen rest

/-- The identifying values whose buckets have at least two members, in
first-occurrence order: the keys of the merged-node dict. -/
def bigNames (nodes : List Node) : List String :=
  (freshKeys [] nodes).filter (fun v => 1 < (bucketOf nodes v).length)

/-- Follows the spec's words for the merged property value of claim C3: the
first-seen value when every later occurrence agrees with it, otherwise the
empty string; no binding when no member carries the key. -/
def specPropMerge : List String → Option String
  | [] => none
  | v :: vs => some (if vs.all (· == v) then v else "")

/-- One step of `specPropMerge` seen as a left fold, used to relate the
property-merging loop to its specification. -/
def propCombine (a : Option String) (v : String) : Option String :=
  match a with
  | none => some v
  | some w => some (if w = v then w else "")

/-- Well-formedness of a graph for deduplication: pairwise-distinct node ids
and, per node, pairwise-distinct property keys — both automatic for graphs
deserialized from Python dicts keyed by id — plus digit-string ids as
produced by the graph merge (Python's `min(ids, key=int)` calls `int` on
every bucketed id). -/
def WFGraph (g : Graph) : Prop :=
  (g.nodes.map Node.id).Nodup ∧
    (∀ n ∈ g.nodes, strIsDigit n.id) ∧
    ∀ n ∈ g.nodes, (n.properties.map Prod.fst).Nodup

instance (g : Graph) : Decidable (WFGraph g) := by
  unfold WFGraph; exact inferInstance

/-- The spec's Paris scenario: two nodes named Paris with conflicting
population values, plus a relationship between them. -/
def parisG : Graph :=
  ⟨[⟨"1", ["City"], [("name", "Paris"), ("population", "2M")]⟩,
    ⟨"2", ["Capital"], [("name", "Paris"), ("population", "2.1M")]⟩],
   [⟨"in", "1", "2"⟩]⟩

/-- A graph with a duplicate pair and an unnamed node "3", used by the C10
witness. -/
def unnamedG : Graph :=
  ⟨[⟨"1", ["City"], [("name", "Paris")]⟩,
    ⟨"2", ["City"], [("name", "Paris")]⟩,
    ⟨"3", ["Misc"], [("note", "x")]⟩],
   [⟨"rel", "3", "1"⟩]⟩

/-! ### Association list lemmas -/

theorem assocGet_assocSet_self {κ α : Type} [DecidableEq κ] (l : List (κ × α)) (k : κ)
    (v : α) : assocGet (assocSet l k v) k = some v := by
  induction l with
  | nil => simp [assocSet, assocGet]
  | cons kv rest ih =>
    by_cases h : kv.1 = k
    · simp [assocSet, h, assocGet]
    · simp [assocSet, h, assocGet, ih]

theorem assocGet_assocSet_ne {κ α : Type} [DecidableEq κ] (l : List (κ × α)) (k k' : κ)
    (v : α) (h : k' ≠ k) : assocGet (assocSet l k v) k' = assocGet l k' := by
  have hkk : ¬ k = k' := fun h' => h h'.symm
  induction l with
  | nil => simp [assocSet, assocGet, hkk]
  | cons kv rest ih =>
    by_cases hk : kv.1 = k
    · subst hk
      simp [assocSet, assocGet, hkk]
    · simp [assocSet, hk, assocGet, ih]

/-! ### Invariants of the `clean_graph` node loop -/

theorem foldl_stepNode_mapOK (ns : List Node) (st : Nat × List (Nat × Nat) × List Node)
    (h : ∀ k v, assocGet st.2.1 k = some v → ∃ n ∈ st.2.2, n.id = toString v) :
    ∀ k v, assocGet (ns.foldl stepNode st).2.1 k = some v →
      ∃ n ∈ (ns.foldl stepNode st).2.2, n.id = toString v := by
  induction ns generalizing st with
  | nil => exact h
  | cons n rest ih =>
    simp only [List.foldl_cons]
    apply ih
    intro k v hget
    unfold stepNode at hget ⊢
    by_cases hd : strIsDigit n.id
    · simp only [hd, if_true] at hget ⊢
      by_cases hk : k = strToNat n.id
      · subst hk
        rw [assocGet_assocSet_self] at hget
        injection hget with hv
        subst hv
        exact ⟨{ n with id := toString st.1 }, by simp, rfl⟩
      · rw [assocGet_assocSet_ne _ _ _ _ hk] at hget
        obtain ⟨m, hm, hv⟩ := h k v hget
        exact ⟨m, by simp [hm], hv⟩
    · simp only [hd, if_false] at hget ⊢
      obtain ⟨m, hm, hv⟩ := h k v hget
      exact ⟨m, by simp [hm], hv⟩

theorem foldl_stepNode_mem_nodes (ns : List Node) (st : Nat × List (Nat × Nat) × List Node)
    (x : Node) (hx : x ∈ st.2.2) : x ∈ (ns.foldl stepNode st).2.2 := by
  induction ns generalizing st with
  | nil => exact hx
  | cons n rest ih =>
    simp only [List.foldl_cons]
    apply ih
    unfold stepNode
    by_cases hd : strIsDigit n.id <;> simp [hd, hx]

theorem foldl_stepNode_key_mono (ns : List Node) (st : Nat × List (Nat × Nat) × List Node)
    (k : Nat) (h : (assocGet st.2.1 k).isSome) :
    (assocGet (ns.foldl stepNode st).2.1 k).isSome := by
  induction ns generalizing st with
  | nil => exact h
  | cons n rest ih =>
    simp only [List.foldl_cons]
    apply ih
    unfold stepNode
    by_cases hd : strIsDigit n.id
    · simp only [hd, if_true]
      by_cases hk : k = strToNat n.id
      · subst hk; rw [assocGet_assocSet_self]; rfl
      · rw [assocGet_assocSet_ne _ _ _ _ hk]; exact h
    · simpa [hd] using h

theorem foldl_stepNode_key (ns : List Node) (st : Nat × List (Nat × Nat) × List Node)
    (n : Node) (hn : n ∈ ns) (hd : strIsDigit n.id) :
    (assocGet (ns.foldl stepNode st).2.1 (strToNat n.id)).isSome := by
  induction ns generalizing st with
  | nil => cases hn
  | cons m rest ih =>
    simp only [List.foldl_cons]
    rcases List.mem_cons.mp hn with rfl | hmem
    · apply foldl_stepNode_key_mono
      unfold stepNode
      simp only [hd, if_true]
      rw [assocGet_assocSet_self]; rfl
    · exact ih _ hmem

theorem foldl_stepNode_nondigit (ns : List Node) (st : Nat × List (Nat × Nat) × List Node)
    (n : Node) (hn : n ∈ ns) (hd : ¬ strIsDigit n.id = true) :
    n ∈ (ns.foldl stepNode st).2.2 := by
  induction ns generalizing st with
  | nil => cases hn
  | cons m rest ih =>
    simp only [List.foldl_cons]
    rcases List.mem_cons.mp hn with rfl | hmem
    · apply foldl_stepNode_mem_nodes
      unfold stepNode
      simp [hd]
    · exact ih _ hmem

theorem endpoint_ok (ns : List Node) (st : Nat × List (Nat × Nat) × List Node)
    (hinv : ∀ k v, assocGet st.2.1 k = some v → ∃ n ∈ st.2.2, n.id = toString v)
    (e : String) (n : Node) (hn : n ∈ ns) (he : n.id = e) :
    ∃ m ∈ (ns.foldl stepNode st).2.2,
      m.id = rewriteId (ns.foldl stepNode st).2.1 e := by
  subst he
  by_cases hd : strIsDigit n.id
  · have hkey := foldl_stepNode_key ns st n hn hd
    obtain ⟨v, hv⟩ := Option.isSome_iff_exists.mp hkey
    obtain ⟨m, hm, hid⟩ := foldl_stepNode_mapOK ns st hinv _ v hv
    refine ⟨m, hm, ?_⟩
    unfold rewriteId
    rw [if_pos hd, hv]
    exact hid
  · refine ⟨n, foldl_stepNode_nondigit ns st n hn hd, ?_⟩
    unfold rewriteId
    rw [if_neg hd]

theorem mergeStep_ok (acc batch : Graph) (ha : GraphOK acc) (hb : GraphOK batch) :
    GraphOK (mergeStep acc batch) := by
  intro r hr
  unfold mergeStep at hr ⊢
  simp only [List.mem_append] at hr
  rcases hr with h | h
  · obtain ⟨⟨n1, hn1, e1⟩, ⟨n2, hn2, e2⟩⟩ := ha r h
    exact ⟨⟨n1, by simp [hn1], e1⟩, ⟨n2, by simp [hn2], e2⟩⟩
  · obtain ⟨r0, hr0, rfl⟩ := List.mem_map.mp h
    obtain ⟨⟨n1, hn1, e1⟩, ⟨n2, hn2, e2⟩⟩ := hb r0 hr0
    constructor
    · obtain ⟨m, hm, hid⟩ := endpoint_ok batch.nodes (maxIntId acc.nodes + 1, [], [])
        (by intro k v hkv; simp [assocGet] at hkv) r0.startNode n1 hn1 e1
      exact ⟨m, by simp [hm], hid⟩
    · obtain ⟨m, hm, hid⟩ := endpoint_ok batch.nodes (maxIntId acc.nodes + 1, [], [])
        (by intro k v hkv; simp [assocGet] at hkv) r0.endNode n2 hn2 e2
      exact ⟨m, by simp [hm], hid⟩

theorem foldl_mergeStep_ok (l : List Graph) (acc : Graph) (ha : GraphOK acc)
    (hl : ∀ b ∈ l, GraphOK b) : GraphOK (l.foldl mergeStep acc) := by
  induction l generalizing acc with
  | nil => exact ha
  | cons b bs ih =>
    exact ih (mergeStep acc b) (mergeStep_ok acc b ha (hl b (by simp)))
      (fun x hx => hl x (by simp [hx]))

/-- C1: if every relationship of every batch references a node of its own
batch, then after each batch is folded in by `clean_graph` every relationship
endpoint of the accumulator is the id of some accumulated node; in particular
the fully merged graph has reference integrity. -/
theorem C1_reference_integrity (batches : List Graph) (h : ∀ b ∈ batches, GraphOK b) :
    ∀ k, GraphOK (clean_graph (batches.take k)) := by
  intro k
  cases batches with
  | nil =>
    simp only [List.take_nil, clean_graph]
    intro r hr; cases hr
  | cons b bs =>
    cases k with
    | zero =>
      simp only [List.take_zero, clean_graph]
      intro r hr; cases hr
    | succ k =>
      simp only [List.take_succ_cons, clean_graph]
      exact foldl_mergeStep_ok _ b (h b (by simp))
        (fun x hx => h x (List.mem_cons_of_mem _ (List.take_subset _ _ hx)))

/-- Witness for C1 at the two-batch scenario graphs. -/
theorem C1_reference_integrity_witness :
    (∀ b ∈ [batchW0, batchW1], GraphOK b) ∧
      ∀ k, GraphOK (clean_graph ([batchW0, batchW1].take k)) :=
  ⟨by decide, C1_reference_integrity [batchW0, batchW1] (by decide)⟩

/-! ### Claim C2: consecutive remapping of later-batch ids -/

theorem le_foldl_max (l : List Nat) (a : Nat) : a ≤ l.foldl max a := by
  induction l generalizing a with
  | nil => exact le_refl a
  | cons y ys ih => exact le_trans (le_max_left a y) (ih (max a y))

theorem foldl_max_le (l : List Nat) (a : Nat) : ∀ x ∈ l, x ≤ l.foldl max a := by
  induction l generalizing a with
  | nil => intro x hx; cases hx
  | cons y ys ih =>
    intro x hx
    rcases List.mem_cons.mp hx with rfl | hmem
    · calc x ≤ max a x := le_max_right a x
        _ ≤ ys.foldl max (max a x) := le_foldl_max ys (max a x)
    · exact ih (max a y) x hmem

theorem foldl_max_mem (l : List Nat) (a : Nat) :
    l.foldl max a = a ∨ l.foldl max a ∈ l := by
  induction l generalizing a with
  | nil => exact Or.inl rfl
  | cons y ys ih =>
    rcases ih (max a y) with h | h
    · simp only [List.foldl_cons, h]
      rcases Nat.le_total a y with hle | hle
      · right; simp [Nat.max_eq_right hle]
      · left; simp [Nat.max_eq_left hle]
    · right; exact List.mem_cons_of_mem _ h

theorem foldl_stepNode_nodes (ns : List Node) (m : Nat) (mp : List (Nat × Nat))
    (pre : List Node) :
    (ns.foldl stepNode (m, mp, pre)).2.2 = pre ++ specRenumber m ns := by
  induction ns generalizing m mp pre with
  | nil => simp [specRenumber]
  | cons n rest ih =>
    simp only [List.foldl_cons, stepNode, specRenumber]
    by_cases hd : strIsDigit n.id
    · simp [hd, ih]
    · simp [hd, ih]

/-- C2: when the accumulator contains at least one digit-string id, merging a
later batch appends its nodes with every digit-string id reassigned
consecutively starting at one plus the largest integer-valued accumulated id,
non-numeric ids passing through unchanged. -/
theorem C2_consecutive_remapping (acc batch : Graph)
    (h : ∃ n ∈ acc.nodes, strIsDigit n.id) :
    (∃ n ∈ acc.nodes, strIsDigit n.id ∧ strToNat n.id = maxIntId acc.nodes) ∧
      (∀ n ∈ acc.nodes, strIsDigit n.id → strToNat n.id ≤ maxIntId acc.nodes) ∧
      (mergeStep acc batch).nodes =
        acc.nodes ++ specRenumber (maxIntId acc.nodes + 1) batch.nodes := by
  obtain ⟨n0, hn0, hd0⟩ := h
  have hmemval : ∀ n ∈ acc.nodes, strIsDigit n.id → strToNat n.id ∈
      acc.nodes.filterMap
        (fun n => if strIsDigit n.id then some (strToNat n.id) else none) := by
    intro n hn hd
    exact List.mem_filterMap.mpr ⟨n, hn, by simp [hd]⟩
  refine ⟨?_, ?_, ?_⟩
  · rcases foldl_max_mem
        (acc.nodes.filterMap
          (fun n => if strIsDigit n.id then some (strToNat n.id) else none)) 0 with
      h0 | hmem
    · refine ⟨n0, hn0, hd0, ?_⟩
      have hle := foldl_max_le _ 0 (strToNat n0.id) (hmemval n0 hn0 hd0)
      unfold maxIntId
      omega
    · obtain ⟨n1, hn1, hv⟩ := List.mem_filterMap.mp hmem
      by_cases hd1 : strIsDigit n1.id
      · refine ⟨n1, hn1, hd1, ?_⟩
        simp only [hd1, if_true, Option.some.injEq] at hv
        exact hv
      · simp [hd1] at hv
  · intro n hn hd
    exact foldl_max_le _ 0 (strToNat n.id) (hmemval n hn hd)
  · show (mergeStep acc batch).nodes = _
    unfold mergeStep
    simp [foldl_stepNode_nodes]

/-- Witness for C2 at the spec's two-batch scenario, including the rewritten
relationship endpoints and reassigned global ids "2" and "3". -/
theorem C2_consecutive_remapping_witness :
    ((∃ n ∈ batchW0.nodes, strIsDigit n.id ∧ strToNat n.id = maxIntId batchW0.nodes) ∧
      (∀ n ∈ batchW0.nodes, strIsDigit n.id → strToNat n.id ≤ maxIntId batchW0.nodes) ∧
      (mergeStep batchW0 batchW1).nodes =
        batchW0.nodes ++ specRenumber (maxIntId batchW0.nodes + 1) batchW1.nodes) ∧
    clean_graph [batchW0, batchW1] =
      ⟨[⟨"0", [], []⟩, ⟨"1", [], []⟩, ⟨"2", [], []⟩, ⟨"3", [], []⟩],
        [⟨"rel", "2", "3"⟩]⟩ :=
  ⟨C2_consecutive_remapping batchW0 batchW1 (by decide), by decide⟩

/-! ### Claim C5: ontology description deduplication -/

theorem is_duplicate_iff (sim : String → String → ℚ) (l : List String) (nd : String) :
    is_duplicate sim l nd = true ↔ ∃ d ∈ l, sim d nd > 11 / 20 := by
  induction l with
  | nil => simp [is_duplicate]
  | cons d ds ih =>
    unfold is_duplicate
    by_cases hgt : sim d nd > 11 / 20
    · simp [hgt]
    · simp only [hgt, if_false, ih, List.mem_cons]
      constructor
      · rintro ⟨x, hx, hgtx⟩
        exact ⟨x, Or.inr hx, hgtx⟩
      · rintro ⟨x, hx | hx, hgtx⟩
        · subst hx; exact absurd hgtx hgt
        · exact ⟨x, hx, hgtx⟩

/-- C5: under an already-present relationship type name, the incoming
description is discarded exactly when some already-stored description is equal
to it or has similarity strictly above 0.55, the first sufficiently similar
one being decisive; otherwise the record is appended at the end of the
bucket. -/
theorem C5_description_dedup (sim : String → String → ℚ)
    (relations : List (String × List RelRec)) (name descr src tgt : String)
    (recs : List RelRec) (h : assocGet relations name = some recs) :
    addRelationDescription sim relations name descr src tgt =
      if ∃ d ∈ recs.map RelRec.description, d = descr ∨ sim d descr > 11 / 20
      then relations
      else assocSet relations name (recs ++ [⟨descr, src, tgt⟩]) := by
  unfold addRelationDescription
  simp only [h]
  by_cases hex : ∃ d ∈ recs.map RelRec.description, d = descr ∨ sim d descr > 11 / 20
  · rw [if_pos hex]
    by_cases hc : descr ∈ recs.map RelRec.description
    · rw [if_pos hc]
    · rw [if_neg hc]
      have hdup : is_duplicate sim (recs.map RelRec.description) descr = true := by
        obtain ⟨d, hd, hor⟩ := hex
        rcases hor with rfl | hgt
        · exact absurd hd hc
        · exact (is_duplicate_iff _ _ _).mpr ⟨d, hd, hgt⟩
      rw [if_pos hdup]
  · rw [if_neg hex]
    have hc : descr ∉ recs.map RelRec.description := fun hc =>
      hex ⟨descr, hc, Or.inl rfl⟩
    rw [if_neg hc]
    have hdup : ¬ is_duplicate sim (recs.map RelRec.description) descr = true := by
      intro hdup
      obtain ⟨d, hd, hgt⟩ := (is_duplicate_iff _ _ _).mp hdup
      exact hex ⟨d, hd, Or.inr hgt⟩
    rw [if_neg hdup]

/-- Witness for C5: with a similarity oracle that always reports 1, a new
description under the existing type name is discarded. -/
theorem C5_description_dedup_witness :
    assocGet relsW "locatedIn" = some [⟨"a place contains another", "Place", "Place"⟩] ∧
      addRelationDescription (fun _ _ => 1) relsW "locatedIn" "is in" "City" "Country" =
        relsW := by
  refine ⟨by decide, ?_⟩
  rw [C5_description_dedup (fun _ _ => 1) relsW "locatedIn" "is in" "City" "Country"
    [⟨"a place contains another", "Place", "Place"⟩] (by decide)]
  rw [if_pos ⟨"a place contains another", by simp, Or.inr (by norm_num)⟩]

/-! ### Claim C6: name canonicalization -/

/-- C6 counterexample: the code maps `"world-war_II"` to `"WorldWarII"`, not to
`"WorldWarIi"` as the claim states, because a word whose first character is
uppercase is left untouched rather than capitalized. -/
theorem C6_counterexample :
    _replace_nonchar "world-war_II" = "WorldWarII" ∧
      _replace_nonchar "world-war_II" ≠ "WorldWarIi" := by decide

/-- C6 amended: hyphens and underscores become spaces and newlines are
stripped; when the result contains a space, its whitespace-separated words are
joined, capitalizing (first letter up, remainder lowered) exactly the words
whose first character is lowercase and leaving the others unchanged, while a
result without a space is returned as is. -/
theorem C6_amended :
    _replace_nonchar "world-war_II" = "WorldWarII" ∧
      _replace_nonchar "hello-world_example\n" = "HelloWorldExample" ∧
      _replace_nonchar "iPhone case" = "IphoneCase" ∧
      _replace_nonchar "hello" = "hello" ∧
      _replace_nonchar "new\nline test" = "NewlineTest" := by decide

/-! ### Claims C7, C8, C9: structural metrics and the ontology traversals -/

theorem get_entities_len (l : List (String × PyVal)) :
    (get_entities_onto l).1.length = (get_entities_onto l).2 := by
  induction l using get_entities_onto.induct with
  | case1 => simp [get_entities_onto]
  | case2 key rest s ih => simpa [get_entities_onto] using ih
  | case3 key rest d cd hlk ih1 ih2 =>
    simp only [get_entities_onto]
    split <;> simp_all <;> omega
  | case4 key rest d s hlk ih =>
    simp only [get_entities_onto]
    split <;> simp_all <;> omega
  | case5 key rest d hlk hother ih =>
    simp only [get_entities_onto]
    split <;> simp_all <;> omega
  | case6 key rest d hlk hother ih =>
    simp only [get_entities_onto]
    split <;> simp_all <;> omega

theorem get_properties_le (l : List (String × PyVal)) :
    (get_properties_onto l).1.length ≤ (get_properties_onto l).2 := by
  induction l using get_properties_onto.induct with
  | case1 => simp [get_properties_onto]
  | case2 rest d ih =>
    simp only [get_properties_onto]
    split <;> simp_all <;> omega
  | case3 rest s ih =>
    simp only [get_properties_onto]
    split <;> simp_all <;> omega
  | case4 key rest hk d ih1 ih2 =>
    simp only [get_properties_onto]
    split <;> simp_all <;> omega
  | case5 key rest hk s ih =>
    simp only [get_properties_onto]
    split <;> simp_all <;> omega

/-- C8: a zero denominator (entity count, property count or parent/child pair
count) makes the corresponding structural metric undefined (`none`, modelling
Python's uncaught `ZeroDivisionError`), never a numeric value. -/
theorem C8_degenerate_metrics :
    (∀ o : Ontology, (get_entities_onto o.entities).2 = 0 →
        calculate_instantiated_class_ratio_onto o = none) ∧
      (∀ (o : Ontology) (g : Graph), (get_entities_onto o.entities).2 = 0 →
        calculate_instantiated_class_ratio_kg o g = none) ∧
      (∀ (o : Ontology) (g : Graph), (get_properties_onto o.entities).2 = 0 →
        calculate_instantiated_property_ratio o g = none) ∧
      (∀ o : Ontology, (get_entities_onto o.entities).2 = 0 →
        calculate_subclass_property_acquisition o = none) ∧
      (∀ o : Ontology, (get_parent_child_pairs o.entities none).length = 0 →
        calculate_subclass_property_acquisitionV2 o = none) := by
  refine ⟨?_, ?_, ?_, ?_, ?_⟩
  · intro o h
    unfold calculate_instantiated_class_ratio_onto
    rw [if_pos h]
  · intro o g h
    unfold calculate_instantiated_class_ratio_kg
    rw [if_pos h]
  · intro o g h
    unfold calculate_instantiated_property_ratio
    rw [if_pos h]
  · intro o h
    unfold calculate_subclass_property_acquisition
    rw [if_pos h]
  · intro o h
    unfold calculate_subclass_property_acquisitionV2
    rw [if_pos h]

/-- Witness for C8 at the empty ontology and graph: every denominator is zero
and every metric is undefined. -/
theorem C8_degenerate_metrics_witness :
    (get_entities_onto emptyOnto.entities).2 = 0 ∧
      (get_properties_onto emptyOnto.entities).2 = 0 ∧
      (get_parent_child_pairs emptyOnto.entities none).length = 0 ∧
      calculate_instantiated_class_ratio_onto emptyOnto = none ∧
      calculate_instantiated_class_ratio_kg emptyOnto emptyGraph = none ∧
      calculate_instantiated_property_ratio emptyOnto emptyGraph = none ∧
      calculate_subclass_property_acquisition emptyOnto = none ∧
      calculate_subclass_property_acquisitionV2 emptyOnto = none := by
  have h1 : (get_entities_onto emptyOnto.entities).2 = 0 := by
    simp [emptyOnto, get_entities_onto]
  have h2 : (get_properties_onto emptyOnto.entities).2 = 0 := by
    simp [emptyOnto, get_properties_onto]
  have h3 : (get_parent_child_pairs emptyOnto.entities none).length = 0 := by
    simp [emptyOnto, get_parent_child_pairs]
  exact ⟨h1, h2, h3,
    C8_degenerate_metrics.1 emptyOnto h1,
    C8_degenerate_metrics.2.1 emptyOnto emptyGraph h1,
    C8_degenerate_metrics.2.2.1 emptyOnto emptyGraph h2,
    C8_degenerate_metrics.2.2.2.1 emptyOnto h1,
    C8_degenerate_metrics.2.2.2.2 emptyOnto h3⟩

set_option maxHeartbeats 2000000 in
/-- C7 counterexample: on a well-formed two-entity ontology whose single child
acquires five new properties, `calculate_subclass_property_acquisition`
returns 5/2, which is not in [0, 1]. -/
theorem C7_counterexample :
    calculate_subclass_property_acquisition ontoC7 = some (5 / 2) ∧
      ¬ (5 / 2 : ℚ) ≤ 1 := by
  constructor
  · have he : get_entities_onto ontoC7.entities = (["P", "C"], 2) := by
      simp [ontoC7, entC7, get_entities_onto, lookupPV, hasOtherMarker,
        charsContain, charsStart]
    have hp : get_parent_child_pairs ontoC7.entities none =
        [(("P", []), ("C", ["a", "b", "c", "d", "e"]))] := by
      simp [ontoC7, entC7, get_parent_child_pairs, lookupPV]
    have hn : newPropsCount ["a", "b", "c", "d", "e"] [] = 5 := by decide
    simp only [calculate_subclass_property_acquisition, he, hp, List.map_cons,
      List.map_nil, List.sum_cons, List.sum_nil, hn]
    norm_num
  · norm_num

/-- C7 amended: the instantiated class ratios and the instantiated property
ratio lie in [0, 1] whenever they are defined, while the subclass property
acquisition metrics are only guaranteed nonnegative (they can exceed 1). -/
theorem C7_amended :
    (∀ (o : Ontology) (q : ℚ), calculate_instantiated_class_ratio_onto o = some q →
        0 ≤ q ∧ q ≤ 1) ∧
      (∀ (o : Ontology) (g : Graph) (q : ℚ),
        calculate_instantiated_class_ratio_kg o g = some q → 0 ≤ q ∧ q ≤ 1) ∧
      (∀ (o : Ontology) (g : Graph) (q : ℚ),
        calculate_instantiated_property_ratio o g = some q → 0 ≤ q ∧ q ≤ 1) ∧
      (∀ (o : Ontology) (q : ℚ),
        calculate_subclass_property_acquisition o = some q → 0 ≤ q) ∧
      (∀ (o : Ontology) (q : ℚ),
        calculate_subclass_property_acquisitionV2 o = some q → 0 ≤ q) := by
  have hratio : ∀ (c n : Nat) (q : ℚ), n ≠ 0 → c ≤ n → q = (c : ℚ) / n →
      0 ≤ q ∧ q ≤ 1 := by
    intro c n q hn hc hq
    have hnpos : (0 : ℚ) < n := by
      exact_mod_cast Nat.pos_of_ne_zero hn
    subst hq
    constructor
    · exact div_nonneg (by positivity) (le_of_lt hnpos)
    · rw [div_le_one hnpos]
      exact_mod_cast hc
  refine ⟨?_, ?_, ?_, ?_, ?_⟩
  · intro o q h
    unfold calculate_instantiated_class_ratio_onto at h
    by_cases h0 : (get_entities_onto o.entities).2 = 0
    · rw [if_pos h0] at h; cases h
    · rw [if_neg h0] at h
      injection h with h
      refine hratio _ _ _ h0 ?_ h.symm
      calc (get_entities_onto o.entities).1.countP _
          ≤ (get_entities_onto o.entities).1.length := List.countP_le_length _
        _ = (get_entities_onto o.entities).2 := get_entities_len _
  · intro o g q h
    unfold calculate_instantiated_class_ratio_kg at h
    by_cases h0 : (get_entities_onto o.entities).2 = 0
    · rw [if_pos h0] at h; cases h
    · rw [if_neg h0] at h
      injection h with h
      refine hratio _ _ _ h0 ?_ h.symm
      calc (get_entities_onto o.entities).1.countP _
          ≤ (get_entities_onto o.entities).1.length := List.countP_le_length _
        _ = (get_entities_onto o.entities).2 := get_entities_len _
  · intro o g q h
    unfold calculate_instantiated_property_ratio at h
    by_cases h0 : (get_properties_onto o.entities).2 = 0
    · rw [if_pos h0] at h; cases h
    · rw [if_neg h0] at h
      injection h with h
      refine hratio _ _ _ h0 ?_ h.symm
      calc (get_properties_onto o.entities).1.countP _
          ≤ (get_properties_onto o.entities).1.length := List.countP_le_length _
        _ ≤ (get_properties_onto o.entities).2 := get_properties_le _
  · intro o q h
    unfold calculate_subclass_property_acquisition at h
    by_cases h0 : (get_entities_onto o.entities).2 = 0
    · rw [if_pos h0] at h; cases h
    · rw [if_neg h0] at h
      injection h with h
      rw [← h]
      positivity
  · intro o q h
    unfold calculate_subclass_property_acquisitionV2 at h
    by_cases h0 : (get_parent_child_pairs o.entities none).length = 0
    · rw [if_pos h0] at h; cases h
    · rw [if_neg h0] at h
      injection h with h
      rw [← h]
      positivity

/-- Witness for C7 amended at a one-entity ontology whose entity is used by a
relationship, so the class ratio is exactly 1. -/
theorem C7_amended_witness :
    calculate_instantiated_class_ratio_onto ontoW = some 1 ∧
      0 ≤ (1 : ℚ) ∧ (1 : ℚ) ≤ 1 := by
  have hcomp : calculate_instantiated_class_ratio_onto ontoW = some 1 := by
    unfold calculate_instantiated_class_ratio_onto
    have he : get_entities_onto ontoW.entities = (["A"], 1) := by
      simp [ontoW, get_entities_onto, lookupPV, hasOtherMarker, charsContain,
        charsStart]
    rw [he]
    norm_num [check_if_class_in_onto, ontoW]
  exact ⟨hcomp, C7_amended.1 ontoW 1 hcomp⟩

/-- C9 counterexample: for an `Other` key whose value carries a
`childrenEntities` key, `get_entities_onto` only recurses and does not flatten
the value's keys one level deep: the key `B` is not collected. -/
theorem C9_counterexample :
    get_entities_onto entC9 = (["Other", "A"], 2) ∧
      "B" ∉ (get_entities_onto entC9).1 := by
  have h : get_entities_onto entC9 = (["Other", "A"], 2) := by
    simp [entC9, get_entities_onto, lookupPV, hasOtherMarker, charsContain,
      charsStart]
  refine ⟨h, ?_⟩
  rw [h]
  decide

/-- C9 amended: `get_entities_onto` collects, depth first, each key whose
value is a dict, recursing into `childrenEntities` when that key is present;
only a key containing the marker `Other` whose value has no
`childrenEntities` key additionally contributes every key of its value one
level deep, and the returned count always equals the length of the returned
list. -/
theorem C9_amended (l : List (String × PyVal)) :
    get_entities_onto l = (collectEntitiesSpec l, (collectEntitiesSpec l).length) := by
  induction l using get_entities_onto.induct with
  | case1 => simp [get_entities_onto, collectEntitiesSpec]
  | case2 key rest s ih =>
    simpa [get_entities_onto, collectEntitiesSpec] using ih
  | case3 key rest d cd hlk ih1 ih2 =>
    simp only [get_entities_onto, collectEntitiesSpec]
    split <;> simp_all <;> omega
  | case4 key rest d s hlk ih =>
    simp only [get_entities_onto, collectEntitiesSpec]
    split <;> simp_all <;> omega
  | case5 key rest d hlk hother ih =>
    simp only [get_entities_onto, collectEntitiesSpec]
    split <;> simp_all <;> omega
  | case6 key rest d hlk hother ih =>
    simp only [get_entities_onto, collectEntitiesSpec]
    split <;> simp_all <;> omega

/-! ### Deduplication: association-list and bucket infrastructure -/

theorem assocGet_eq_none {κ α : Type} [DecidableEq κ] (l : List (κ × α)) (k : κ) :
    assocGet l k = none ↔ k ∉ l.map Prod.fst := by
  induction l with
  | nil => simp [assocGet]
  | cons kv rest ih =>
    by_cases h : kv.1 = k
    · simp [assocGet, h]
    · rw [assocGet, if_neg h, ih, List.map_cons]
      constructor
      · intro hk hmem
        rcases List.mem_cons.mp hmem with h' | h'
        · exact h h'.symm
        · exact hk h'
      · intro hk hmem
        exact hk (List.mem_cons_of_mem _ hmem)

theorem assocGet_append_of_some {κ α : Type} [DecidableEq κ] (a b : List (κ × α))
    (k : κ) (v : α) (h : assocGet a k = some v) : assocGet (a ++ b) k = some v := by
  induction a with
  | nil => simp [assocGet] at h
  | cons kv rest ih =>
    by_cases hk : kv.1 = k
    · simpa [assocGet, hk] using h
    · rw [assocGet, if_neg hk] at h
      simpa [assocGet, hk] using ih h

theorem assocGet_append_of_none {κ α : Type} [DecidableEq κ] (a b : List (κ × α))
    (k : κ) (h : assocGet a k = none) : assocGet (a ++ b) k = assocGet b k := by
  induction a with
  | nil => simp
  | cons kv rest ih =>
    by_cases hk : kv.1 = k
    · rw [assocGet, if_pos hk] at h; cases h
    · rw [assocGet, if_neg hk] at h
      simpa [assocGet, hk] using ih h

theorem assocSet_not_mem {κ α : Type} [DecidableEq κ] (l : List (κ × α)) (k : κ)
    (v : α) (hk : k ∉ l.map Prod.fst) : assocSet l k v = l ++ [(k, v)] := by
  induction l with
  | nil => rfl
  | cons kv rest ih =>
    have h1 : kv.1 ≠ k := by
      intro h; exact hk (by rw [List.map_cons, h]; exact List.mem_cons_self _ _)
    have h2 : k ∉ rest.map Prod.fst := fun h =>
      hk (by rw [List.map_cons]; exact List.mem_cons_of_mem _ h)
    simp only [assocSet, if_neg h1, List.cons_append]
    rw [ih h2]

theorem assocAppend_not_mem {κ α : Type} [DecidableEq κ] (l : List (κ × List α))
    (k : κ) (x : α) (hk : k ∉ l.map Prod.fst) :
    assocAppend l k x = l ++ [(k, [x])] := by
  induction l with
  | nil => rfl
  | cons kv rest ih =>
    have h1 : kv.1 ≠ k := by
      intro h; exact hk (by rw [List.map_cons, h]; exact List.mem_cons_self _ _)
    have h2 : k ∉ rest.map Prod.fst := fun h =>
      hk (by rw [List.map_cons]; exact List.mem_cons_of_mem _ h)
    simp only [assocAppend, if_neg h1, List.cons_append]
    rw [ih h2]

theorem assocAppend_mem_nodup {κ α : Type} [DecidableEq κ] (l : List (κ × List α))
    (k : κ) (x : α) (hnd : (l.map Prod.fst).Nodup) (hk : k ∈ l.map Prod.fst) :
    assocAppend l k x = l.map (fun kv => if kv.1 = k then (kv.1, kv.2 ++ [x]) else kv) := by
  induction l with
  | nil => cases hk
  | cons kv rest ih =>
    rw [List.map_cons, List.nodup_cons] at hnd
    by_cases h1 : kv.1 = k
    · subst h1
      have hrest : rest.map (fun p => if p.1 = kv.1 then (p.1, p.2 ++ [x]) else p) =
          rest.map id := by
        apply List.map_congr_left
        intro p hp
        have hne : p.1 ≠ kv.1 := by
          intro h; exact hnd.1 (h ▸ List.mem_map_of_mem _ hp)
        simp [hne]
      rw [List.map_id] at hrest
      simp [assocAppend, hrest]
    · have hk' : k ∈ rest.map Prod.fst := by
        rw [List.map_cons] at hk
        rcases List.mem_cons.mp hk with h | h
        · exact absurd h.symm h1
        · exact h
      simp only [assocAppend, if_neg h1, List.map_cons, if_neg h1]
      congr 1
      exact ih hnd.2 hk'

theorem map_fst_assocAppend {κ α : Type} [DecidableEq κ] (l : List (κ × List α))
    (k : κ) (x : α) (hnd : (l.map Prod.fst).Nodup) (hk : k ∈ l.map Prod.fst) :
    (assocAppend l k x).map Prod.fst = l.map Prod.fst := by
  rw [assocAppend_mem_nodup l k x hnd hk, List.map_map]
  apply List.map_congr_left
  intro p _
  by_cases h : p.1 = k <;> simp [h]

/-! ### freshKeys and buckets -/

theorem freshKeys_cons_none (s : List String) (n : Node) (rest : List Node)
    (hg : goodName n = none) : freshKeys s (n :: rest) = freshKeys s rest := by
  simp [freshKeys, hg]

theorem freshKeys_cons_some (s : List String) (n : Node) (rest : List Node)
    (v : String) (hg : goodName n = some v) :
    freshKeys s (n :: rest) =
      if v ∈ s then freshKeys s rest else v :: freshKeys (v :: s) rest := by
  by_cases hv : v ∈ s
  · simp [freshKeys, hg, List.elem_eq_mem, hv]
  · simp [freshKeys, hg, List.elem_eq_mem, hv]

theorem freshKeys_seen_congr (l : List Node) (s1 s2 : List String)
    (h : ∀ x, x ∈ s1 ↔ x ∈ s2) : freshKeys s1 l = freshKeys s2 l := by
  induction l generalizing s1 s2 with
  | nil => rfl
  | cons n rest ih =>
    cases hg : goodName n with
    | none =>
      rw [freshKeys_cons_none _ _ _ hg, freshKeys_cons_none _ _ _ hg]
      exact ih s1 s2 h
    | some v =>
      rw [freshKeys_cons_some _ _ _ _ hg, freshKeys_cons_some _ _ _ _ hg]
      by_cases hv : v ∈ s1
      · rw [if_pos hv, if_pos ((h v).mp hv)]
        exact ih s1 s2 h
      · rw [if_neg hv, if_neg (fun hx => hv ((h v).mpr hx))]
        rw [ih (v :: s1) (v :: s2) (by intro x; simp [h x])]

theorem freshKeys_not_seen (l : List Node) (s : List String) :
    ∀ v ∈ freshKeys s l, v ∉ s := by
  induction l generalizing s with
  | nil => intro v hv; cases hv
  | cons n rest ih =>
    intro v hv
    cases hg : goodName n with
    | none =>
      rw [freshKeys_cons_none _ _ _ hg] at hv
      exact ih s v hv
    | some w =>
      rw [freshKeys_cons_some _ _ _ _ hg] at hv
      by_cases hw : w ∈ s
      · rw [if_pos hw] at hv
        exact ih s v hv
      · rw [if_neg hw] at hv
        rcases List.mem_cons.mp hv with rfl | hv'
        · exact hw
        · have := ih (w :: s) v hv'
          intro hvs
          exact this (List.mem_cons_of_mem _ hvs)

theorem freshKeys_nodup (l : List Node) (s : List String) :
    (freshKeys s l).Nodup := by
  induction l generalizing s with
  | nil => exact List.nodup_nil
  | cons n rest ih =>
    cases hg : goodName n with
    | none =>
      rw [freshKeys_cons_none _ _ _ hg]
      exact ih s
    | some w =>
      rw [freshKeys_cons_some _ _ _ _ hg]
      by_cases hw : w ∈ s
      · rw [if_pos hw]
        exact ih s
      · rw [if_neg hw, List.nodup_cons]
        refine ⟨?_, ih (w :: s)⟩
        intro hmem
        exact freshKeys_not_seen rest (w :: s) w hmem (List.mem_cons_self _ _)

theorem freshKeys_goodName (l : List Node) (s : List String) (v : String)
    (hv : v ∈ freshKeys s l) : ∃ n ∈ l, goodName n = some v := by
  induction l generalizing s with
  | nil => cases hv
  | cons n rest ih =>
    cases hg : goodName n with
    | none =>
      rw [freshKeys_cons_none _ _ _ hg] at hv
      obtain ⟨m, hm, hgm⟩ := ih s hv
      exact ⟨m, List.mem_cons_of_mem _ hm, hgm⟩
    | some w =>
      rw [freshKeys_cons_some _ _ _ _ hg] at hv
      by_cases hw : w ∈ s
      · rw [if_pos hw] at hv
        obtain ⟨m, hm, hgm⟩ := ih s hv
        exact ⟨m, List.mem_cons_of_mem _ hm, hgm⟩
      · rw [if_neg hw] at hv
        rcases List.mem_cons.mp hv with rfl | hv'
        · exact ⟨n, List.mem_cons_self _ _, hg⟩
        · obtain ⟨m, hm, hgm⟩ := ih (w :: s) hv'
          exact ⟨m, List.mem_cons_of_mem _ hm, hgm⟩

theorem freshKeys_complete (l : List Node) (s : List String) (n : Node) (v : String)
    (hn : n ∈ l) (hg : goodName n = some v) (hs : v ∉ s) : v ∈ freshKeys s l := by
  induction l generalizing s with
  | nil => cases hn
  | cons m rest ih =>
    rcases List.mem_cons.mp hn with rfl | hn'
    · rw [freshKeys_cons_some _ _ _ _ hg, if_neg hs]
      exact List.mem_cons_self _ _
    · cases hgm : goodName m with
      | none =>
        rw [freshKeys_cons_none _ _ _ hgm]
        exact ih s hn' hs
      | some w =>
        rw [freshKeys_cons_some _ _ _ _ hgm]
        by_cases hw : w ∈ s
        · rw [if_pos hw]
          exact ih s hn' hs
        · rw [if_neg hw]
          by_cases hvw : v = w
          · subst hvw; exact List.mem_cons_self _ _
          · refine List.mem_cons_of_mem _ (ih (w :: s) hn' ?_)
            intro hmem
            rcases List.mem_cons.mp hmem with h | h
            · exact hvw h
            · exact hs h

/-! ### Bucket lemmas -/

theorem membersOf_cons (n : Node) (rest : List Node) (v : String) :
    membersOf (n :: rest) v =
      if goodName n = some v then n :: membersOf rest v else membersOf rest v := by
  simp only [membersOf, List.filter_cons]
  by_cases h : goodName n = some v <;> simp [h]

theorem bucketOf_cons (n : Node) (rest : List Node) (v : String) :
    bucketOf (n :: rest) v =
      if goodName n = some v then n.id :: bucketOf rest v else bucketOf rest v := by
  simp only [bucketOf, membersOf_cons]
  by_cases h : goodName n = some v <;> simp [h]

theorem bucketOf_nil (v : String) : bucketOf [] v = [] := rfl

theorem mem_membersOf (nodes : List Node) (v : String) (n : Node) :
    n ∈ membersOf nodes v ↔ n ∈ nodes ∧ goodName n = some v := by
  simp [membersOf, List.mem_filter]

theorem mem_bucketOf (nodes : List Node) (v : String) (x : String) :
    x ∈ bucketOf nodes v ↔ ∃ n, n ∈ membersOf nodes v ∧ n.id = x := by
  simp [bucketOf, List.mem_map]

theorem bucketOf_length (nodes : List Node) (v : String) :
    (bucketOf nodes v).length = (membersOf nodes v).length := by
  simp [bucketOf]

theorem node_id_inj (nodes : List Node) (hnd : (nodes.map Node.id).Nodup)
    (n m : Node) (hn : n ∈ nodes) (hm : m ∈ nodes) (h : n.id = m.id) : n = m := by
  exact List.inj_on_of_nodup_map hnd hn hm h

theorem bucketOf_disjoint (nodes : List Node) (hnd : (nodes.map Node.id).Nodup)
    (v w : String) (hvw : v ≠ w) (x : String) (hx : x ∈ bucketOf nodes v) :
    x ∉ bucketOf nodes w := by
  intro hy
  obtain ⟨n, hn, hnx⟩ := (mem_bucketOf nodes v x).mp hx
  obtain ⟨m, hm, hmx⟩ := (mem_bucketOf nodes w x).mp hy
  obtain ⟨hn1, hn2⟩ := (mem_membersOf nodes v n).mp hn
  obtain ⟨hm1, hm2⟩ := (mem_membersOf nodes w m).mp hm
  have : n = m := node_id_inj nodes hnd n m hn1 hm1 (by rw [hnx, hmx])
  subst this
  rw [hn2] at hm2
  exact hvw (Option.some.inj hm2)

/-! ### minByInt lemmas -/

theorem foldl_minBy_le (xs : List String) (b : String) :
    strToNat (xs.foldl (fun best i => if strToNat i < strToNat best then i else best) b)
      ≤ strToNat b := by
  induction xs generalizing b with
  | nil => exact le_refl _
  | cons x rest ih =>
    simp only [List.foldl_cons]
    by_cases h : strToNat x < strToNat b
    · rw [if_pos h]
      exact le_trans (ih x) (le_of_lt h)
    · rw [if_neg h]
      exact ih b

theorem foldl_minBy_le_mem (xs : List String) (b : String) :
    ∀ x ∈ xs,
      strToNat (xs.foldl (fun best i => if strToNat i < strToNat best then i else best) b)
        ≤ strToNat x := by
  induction xs generalizing b with
  | nil => intro x hx; cases hx
  | cons y rest ih =>
    intro x hx
    simp only [List.foldl_cons]
    rcases List.mem_cons.mp hx with rfl | hmem
    · by_cases h : strToNat x < strToNat b
      · rw [if_pos h]; exact foldl_minBy_le rest x
      · rw [if_neg h]
        exact le_trans (foldl_minBy_le rest b) (le_of_not_lt h)
    · by_cases h : strToNat y < strToNat b
      · rw [if_pos h]; exact ih y x hmem
      · rw [if_neg h]; exact ih b x hmem

theorem foldl_minBy_mem (xs : List String) (b : String) :
    xs.foldl (fun best i => if strToNat i < strToNat best then i else best) b = b ∨
      xs.foldl (fun best i => if strToNat i < strToNat best then i else best) b ∈ xs := by
  induction xs generalizing b with
  | nil => exact Or.inl rfl
  | cons y rest ih =>
    simp only [List.foldl_cons]
    by_cases h : strToNat y < strToNat b
    · rw [if_pos h]
      rcases ih y with h' | h'
      · exact Or.inr (by rw [h']; exact List.mem_cons_self _ _)
      · exact Or.inr (List.mem_cons_of_mem _ h')
    · rw [if_neg h]
      rcases ih b with h' | h'
      · exact Or.inl h'
      · exact Or.inr (List.mem_cons_of_mem _ h')

theorem minByInt_mem (ids : List String) (h : ids ≠ []) : minByInt ids ∈ ids := by
  cases ids with
  | nil => exact absurd rfl h
  | cons x xs =>
    show xs.foldl (fun best i => if strToNat i < strToNat best then i else best) x ∈
      x :: xs
    rcases foldl_minBy_mem xs x with h' | h'
    · rw [h']; exact List.mem_cons_self _ _
    · exact List.mem_cons_of_mem _ h'

theorem minByInt_le (ids : List String) :
    ∀ x ∈ ids, strToNat (minByInt ids) ≤ strToNat x := by
  cases ids with
  | nil => intro x hx; cases hx
  | cons y xs =>
    intro x hx
    show strToNat
        (xs.foldl (fun best i => if strToNat i < strToNat best then i else best) y) ≤
      strToNat x
    rcases List.mem_cons.mp hx with rfl | hmem
    · exact foldl_minBy_le xs x
    · exact foldl_minBy_le_mem xs y x hmem

/-! ### Characterization of the name-to-ids mapping -/

theorem foldl_stepMapping (l : List Node) (acc : List (String × List String))
    (hnd : (acc.map Prod.fst).Nodup) :
    l.foldl stepMapping acc =
      acc.map (fun kv => (kv.1, kv.2 ++ bucketOf l kv.1)) ++
        (freshKeys (acc.map Prod.fst) l).map (fun v => (v, bucketOf l v)) := by
  induction l generalizing acc with
  | nil =>
    simp [bucketOf_nil, freshKeys]
  | cons n rest ih =>
    rw [List.foldl_cons]
    cases hg : goodName n with
    | none =>
      have hstep : stepMapping acc n = acc := by simp [stepMapping, hg]
      rw [hstep, ih acc hnd, freshKeys_cons_none _ _ _ hg]
      congr 1
      · apply List.map_congr_left
        intro kv _
        rw [bucketOf_cons, if_neg (by simp [hg])]
      · apply List.map_congr_left
        intro w _
        rw [bucketOf_cons, if_neg (by simp [hg])]
    | some v =>
      have hstep : stepMapping acc n = assocAppend acc v n.id := by
        simp [stepMapping, hg]
      by_cases hv : v ∈ acc.map Prod.fst
      · rw [hstep, assocAppend_mem_nodup acc v n.id hnd hv]
        have hkeys : (acc.map (fun kv =>
            if kv.1 = v then (kv.1, kv.2 ++ [n.id]) else kv)).map Prod.fst =
              acc.map Prod.fst := by
          rw [List.map_map]
          apply List.map_congr_left
          intro kv _
          by_cases h : kv.1 = v <;> simp [h]
        have hnd' := hkeys ▸ hnd
        rw [ih _ hnd', hkeys, freshKeys_cons_some _ _ _ _ hg, if_pos hv]
        congr 1
        · rw [List.map_map]
          apply List.map_congr_left
          intro kv hkv
          by_cases h : kv.1 = v
          · simp only [Function.comp_apply, if_pos h]
            rw [bucketOf_cons, if_pos (by rw [hg, h])]
            simp
          · simp only [Function.comp_apply, if_neg h]
            rw [bucketOf_cons, if_neg (by
              intro hx; rw [hg] at hx; exact h (Option.some.inj hx).symm)]
        · apply List.map_congr_left
          intro w hw
          have hwv : w ≠ v := by
            have hns := freshKeys_not_seen rest (acc.map Prod.fst) w hw
            intro hx; exact hns (hx ▸ hv)
          rw [bucketOf_cons, if_neg (by
            intro hx; rw [hg] at hx; exact hwv (Option.some.inj hx).symm)]
      · rw [hstep, assocAppend_not_mem acc v n.id hv]
        have hnd2 : ((acc ++ [(v, [n.id])]).map Prod.fst).Nodup := by
          rw [List.map_append, List.nodup_append]
          refine ⟨hnd, List.nodup_singleton v, ?_⟩
          intro x hx hx'
          simp only [List.map_cons, List.map_nil, List.mem_singleton] at hx'
          subst hx'
          exact hv hx
        rw [ih _ hnd2, List.map_append (f := Prod.fst)]
        rw [freshKeys_seen_congr rest (acc.map Prod.fst ++ [(v, [n.id])].map Prod.fst)
          (v :: acc.map Prod.fst) (by intro x; simp [or_comm])]
        rw [freshKeys_cons_some _ _ _ _ hg, if_neg hv]
        rw [List.map_append, List.append_assoc]
        congr 1
        · apply List.map_congr_left
          intro kv hkv
          have hne : kv.1 ≠ v := fun h => hv (h ▸ List.mem_map_of_mem _ hkv)
          rw [bucketOf_cons, if_neg (by
            intro hx; rw [hg] at hx; exact hne (Option.some.inj hx).symm)]
        · rw [List.map_cons, List.map_nil, List.map_cons, List.singleton_append]
          congr 1
          · rw [bucketOf_cons, if_pos hg]
            simp
          · apply List.map_congr_left
            intro w hw
            have hwv : w ≠ v := by
              have hns := freshKeys_not_seen rest (v :: acc.map Prod.fst) w hw
              intro hx
              exact hns (by rw [hx]; exact List.mem_cons_self _ _)
            rw [bucketOf_cons, if_neg (by
              intro hx; rw [hg] at hx; exact hwv (Option.some.inj hx).symm)]

theorem buildMapping_eq (nodes : List Node) :
    buildMapping nodes = (freshKeys [] nodes).map (fun v => (v, bucketOf nodes v)) := by
  have h := foldl_stepMapping nodes [] (by simp)
  simpa [buildMapping] using h

theorem mem_buildMapping (nodes : List Node) (kv : String × List String)
    (h : kv ∈ buildMapping nodes) :
    kv.1 ∈ freshKeys [] nodes ∧ kv.2 = bucketOf nodes kv.1 := by
  rw [buildMapping_eq] at h
  obtain ⟨v, hv, heq⟩ := List.mem_map.mp h
  cases heq
  exact ⟨hv, rfl⟩

theorem buildMapping_complete (nodes : List Node) (v : String)
    (hne : membersOf nodes v ≠ []) :
    (v, bucketOf nodes v) ∈ buildMapping nodes := by
  rw [buildMapping_eq]
  apply List.mem_map_of_mem
  obtain ⟨n, hn⟩ := List.exists_mem_of_ne_nil _ hne
  obtain ⟨hn1, hn2⟩ := (mem_membersOf nodes v n).mp hn
  exact freshKeys_complete nodes [] n v hn1 hn2 (by simp)

theorem mem_duplicateIds (nodes : List Node) (x : String) :
    x ∈ duplicateIds (buildMapping nodes) ↔
      ∃ v, 1 < (bucketOf nodes v).length ∧ x ∈ bucketOf nodes v := by
  unfold duplicateIds
  rw [List.mem_flatten]
  constructor
  · rintro ⟨l, hl, hxl⟩
    obtain ⟨kv, hkv, rfl⟩ := List.mem_map.mp hl
    obtain ⟨hkv1, hbig⟩ := List.mem_filter.mp hkv
    obtain ⟨hk1, hk2⟩ := mem_buildMapping nodes kv hkv1
    refine ⟨kv.1, ?_, ?_⟩
    · rw [← hk2]; exact of_decide_eq_true hbig
    · rw [← hk2]; exact hxl
  · rintro ⟨v, hbig, hxv⟩
    have hne : membersOf nodes v ≠ [] := by
      intro h0
      rw [bucketOf_length] at hbig
      rw [h0] at hbig
      simp at hbig
    refine ⟨bucketOf nodes v, ?_, hxv⟩
    exact List.mem_map.mpr ⟨(v, bucketOf nodes v),
      List.mem_filter.mpr ⟨buildMapping_complete nodes v hne, decide_eq_true hbig⟩, rfl⟩

/-! ### Property merging -/

theorem mergeProps_cons_new (a : List (String × String)) (pv : String × String)
    (rest : List (String × String)) (h : assocGet a pv.1 = none) :
    mergeProps a (pv :: rest) = mergeProps (a ++ [pv]) rest := by
  simp [mergeProps, h]

theorem mergeProps_cons_same (a : List (String × String)) (pv : String × String)
    (rest : List (String × String)) (h : assocGet a pv.1 = some pv.2) :
    mergeProps a (pv :: rest) = mergeProps a rest := by
  simp [mergeProps, h]

theorem mergeProps_cons_diff (a : List (String × String)) (pv : String × String)
    (rest : List (String × String)) (w : String) (h : assocGet a pv.1 = some w)
    (hne : w ≠ pv.2) :
    mergeProps a (pv :: rest) = mergeProps (assocSet a pv.1 "") rest := by
  simp [mergeProps, h, hne]

theorem mergeProps_get_none (ps a : List (String × String)) (p : String)
    (hp : assocGet ps p = none) :
    assocGet (mergeProps a ps) p = assocGet a p := by
  induction ps generalizing a with
  | nil => rfl
  | cons pv rest ih =>
    have hq : pv.1 ≠ p := by
      intro h
      rw [assocGet, if_pos h] at hp
      cases hp
    have hrest : assocGet rest p = none := by
      rwa [assocGet, if_neg hq] at hp
    cases ha : assocGet a pv.1 with
    | none =>
      rw [mergeProps_cons_new _ _ _ ha, ih _ hrest]
      cases hap : assocGet a p with
      | none =>
        rw [assocGet_append_of_none _ _ _ hap, assocGet, if_neg hq]
        rfl
      | some u => rw [assocGet_append_of_some _ _ _ _ hap]
    | some w =>
      by_cases hw : w = pv.2
      · subst hw
        rw [mergeProps_cons_same _ _ _ ha, ih _ hrest]
      · rw [mergeProps_cons_diff _ _ _ _ ha hw, ih _ hrest,
          assocGet_assocSet_ne _ _ _ _ (Ne.symm hq)]

theorem mergeProps_get_some (ps : List (String × String)) (a : List (String × String))
    (p v : String) (hnd : (ps.map Prod.fst).Nodup) (hp : assocGet ps p = some v) :
    assocGet (mergeProps a ps) p = propCombine (assocGet a p) v := by
  induction ps generalizing a with
  | nil => cases hp
  | cons pv rest ih =>
    rw [List.map_cons, List.nodup_cons] at hnd
    by_cases hq : pv.1 = p
    · rw [assocGet, if_pos hq] at hp
      injection hp with hp
      subst hp
      have hrest : assocGet rest p = none := by
        rw [assocGet_eq_none]
        intro hmem
        exact hnd.1 (hq ▸ hmem)
      cases ha : assocGet a pv.1 with
      | none =>
        rw [mergeProps_cons_new _ _ _ ha, mergeProps_get_none _ _ _ hrest]
        have hap : assocGet a p = none := hq ▸ ha
        rw [assocGet_append_of_none _ _ _ hap, assocGet, if_pos hq, hap]
        rfl
      | some w =>
        by_cases hw : w = pv.2
        · subst hw
          rw [mergeProps_cons_same _ _ _ ha, mergeProps_get_none _ _ _ hrest]
          have hap : assocGet a p = some pv.2 := hq ▸ ha
          rw [hap]
          simp [propCombine]
        · rw [mergeProps_cons_diff _ _ _ _ ha hw, mergeProps_get_none _ _ _ hrest]
          subst hq
          rw [assocGet_assocSet_self, ha]
          simp [propCombine, hw]
    · rw [assocGet, if_neg hq] at hp
      cases ha : assocGet a pv.1 with
      | none =>
        rw [mergeProps_cons_new _ _ _ ha, ih _ hnd.2 hp]
        congr 1
        cases hap : assocGet a p with
        | none =>
          rw [assocGet_append_of_none _ _ _ hap, assocGet, if_neg hq]
          rfl
        | some u => rw [assocGet_append_of_some _ _ _ _ hap]
      | some w =>
        by_cases hw : w = pv.2
        · subst hw
          rw [mergeProps_cons_same _ _ _ ha, ih _ hnd.2 hp]
        · rw [mergeProps_cons_diff _ _ _ _ ha hw, ih _ hnd.2 hp]
          congr 1
          exact assocGet_assocSet_ne _ _ _ _ (Ne.symm hq)

theorem foldl_propCombine_some (vs : List String) (w : String) :
    vs.foldl propCombine (some w) = some (if vs.all (· == w) then w else "") := by
  induction vs generalizing w with
  | nil => simp
  | cons v rest ih =>
    simp only [List.foldl_cons]
    by_cases hw : w = v
    · subst hw
      rw [show propCombine (some w) w = some w by simp [propCombine], ih w]
      simp [List.all_cons]
    · have h1 : propCombine (some w) v = some "" := by simp [propCombine, hw]
      have h2 : (v == w) = false := by
        rw [beq_eq_false_iff_ne]
        exact fun h => hw h.symm
      rw [h1, ih ""]
      simp [List.all_cons, h2, ite_self]

theorem foldl_propCombine_none (vs : List String) :
    vs.foldl propCombine none = specPropMerge vs := by
  cases vs with
  | nil => rfl
  | cons v rest =>
    simp only [List.foldl_cons]
    rw [show propCombine none v = some v from rfl, foldl_propCombine_some]
    rfl

/-! ### The bucket-merge fold -/

theorem goodName_ne_empty (n : Node) (v : String) (h : goodName n = some v) :
    v ≠ "" := by
  cases ha : assocGet n.properties "name" with
  | none => simp [goodName, ha] at h
  | some s =>
    simp only [goodName, ha] at h
    by_cases hs : s = ""
    · rw [if_pos hs] at h; cases h
    · rw [if_neg hs] at h
      injection h with h
      subst h
      exact hs

theorem goodName_get (n : Node) (v : String) (h : goodName n = some v) :
    assocGet n.properties "name" = some v := by
  cases ha : assocGet n.properties "name" with
  | none => simp [goodName, ha] at h
  | some s =>
    simp only [goodName, ha] at h
    by_cases hs : s = ""
    · rw [if_pos hs] at h; cases h
    · rw [if_neg hs] at h
      injection h with h
      subst h
      rfl

theorem foldl_mergeNodeStep_id (ms : List Node) (acc : Node) :
    (ms.foldl mergeNodeStep acc).id = acc.id := by
  induction ms generalizing acc with
  | nil => rfl
  | cons m rest ih =>
    rw [List.foldl_cons, ih]
    rfl

theorem setUpdate_cons (s : List String) (x : String) (rest : List String) :
    setUpdate s (x :: rest) = setUpdate (if x ∈ s then s else s ++ [x]) rest := by
  by_cases h : x ∈ s
  · simp [setUpdate, List.elem_eq_mem, h]
  · simp [setUpdate, List.elem_eq_mem, h]

theorem setUpdate_mem (s new : List String) (l : String) :
    l ∈ setUpdate s new ↔ l ∈ s ∨ l ∈ new := by
  induction new generalizing s with
  | nil => simp [setUpdate]
  | cons x rest ih =>
    rw [setUpdate_cons, ih]
    by_cases h : x ∈ s
    · rw [if_pos h]
      constructor
      · rintro (hs | hr)
        · exact Or.inl hs
        · exact Or.inr (List.mem_cons_of_mem _ hr)
      · rintro (hs | hr)
        · exact Or.inl hs
        · rcases List.mem_cons.mp hr with rfl | hr'
          · exact Or.inl h
          · exact Or.inr hr'
    · rw [if_neg h]
      simp only [List.mem_append, List.mem_singleton, List.mem_cons]
      tauto

theorem foldl_mergeNodeStep_labels (ms : List Node) (acc : Node) (l : String) :
    l ∈ (ms.foldl mergeNodeStep acc).labels ↔
      l ∈ acc.labels ∨ ∃ n ∈ ms, l ∈ n.labels := by
  induction ms generalizing acc with
  | nil => simp
  | cons m rest ih =>
    rw [List.foldl_cons, ih,
      show (mergeNodeStep acc m).labels = setUpdate acc.labels m.labels from rfl,
      setUpdate_mem]
    simp only [List.mem_cons]
    constructor
    · rintro ((ha | hm) | ⟨n, hn, hln⟩)
      · exact Or.inl ha
      · exact Or.inr ⟨m, Or.inl rfl, hm⟩
      · exact Or.inr ⟨n, Or.inr hn, hln⟩
    · rintro (ha | ⟨n, rfl | hn, hln⟩)
      · exact Or.inl (Or.inl ha)
      · exact Or.inl (Or.inr hln)
      · exact Or.inr ⟨n, hn, hln⟩

theorem foldl_mergeNodeStep_props (ms : List Node) (acc : Node) (p : String)
    (hms : ∀ n ∈ ms, (n.properties.map Prod.fst).Nodup) :
    assocGet (ms.foldl mergeNodeStep acc).properties p =
      (ms.filterMap (fun n => assocGet n.properties p)).foldl propCombine
        (assocGet acc.properties p) := by
  induction ms generalizing acc with
  | nil => rfl
  | cons m rest ih =>
    rw [List.foldl_cons, ih _ (fun n hn => hms n (List.mem_cons_of_mem _ hn)),
      List.filterMap_cons]
    cases hm : assocGet m.properties p with
    | none =>
      congr 1
      rw [show (mergeNodeStep acc m).properties =
        mergeProps acc.properties m.properties from rfl]
      exact mergeProps_get_none _ _ _ hm
    | some v =>
      rw [List.foldl_cons]
      congr 1
      rw [show (mergeNodeStep acc m).properties =
        mergeProps acc.properties m.properties from rfl]
      exact mergeProps_get_some _ _ _ _ (hms m (List.mem_cons_self _ _)) hm

theorem find?_id_of_mem (nodes : List Node) (hnd : (nodes.map Node.id).Nodup)
    (n : Node) (hn : n ∈ nodes) :
    nodes.find? (fun m => m.id == n.id) = some n := by
  induction nodes with
  | nil => cases hn
  | cons m rest ih =>
    rw [List.map_cons, List.nodup_cons] at hnd
    rcases List.mem_cons.mp hn with rfl | hmem
    · rw [List.find?_cons_of_pos _ (by simp)]
    · have hne : m.id ≠ n.id := by
        intro h
        exact hnd.1 (h ▸ List.mem_map_of_mem Node.id hmem)
      rw [List.find?_cons_of_neg _ (by simp [hne])]
      exact ih hnd.2 hmem

theorem mergeBucket_eq_fold (nodes : List Node) (hnd : (nodes.map Node.id).Nodup)
    (v : String) :
    mergeBucket nodes (bucketOf nodes v) =
      (membersOf nodes v).foldl mergeNodeStep
        ⟨minByInt (bucketOf nodes v), [], []⟩ := by
  suffices h : ∀ (ms : List Node) (acc : Node), (∀ m ∈ ms, m ∈ nodes) →
      (ms.map Node.id).foldl (fun acc i =>
        match nodes.find? (fun n => n.id == i) with
        | some node => mergeNodeStep acc node
        | none => acc) acc = ms.foldl mergeNodeStep acc by
    exact h (membersOf nodes v) _ (fun m hm => ((mem_membersOf nodes v m).mp hm).1)
  intro ms
  induction ms with
  | nil => intro acc _; rfl
  | cons m rest ih =>
    intro acc hsub
    rw [List.map_cons, List.foldl_cons, List.foldl_cons,
      find?_id_of_mem nodes hnd m (hsub m (List.mem_cons_self _ _))]
    exact ih _ (fun x hx => hsub x (List.mem_cons_of_mem _ hx))

theorem mergeBucket_id (nodes : List Node) (hnd : (nodes.map Node.id).Nodup)
    (v : String) :
    (mergeBucket nodes (bucketOf nodes v)).id = minByInt (bucketOf nodes v) := by
  rw [mergeBucket_eq_fold nodes hnd v, foldl_mergeNodeStep_id]

theorem mergeBucket_labels (nodes : List Node) (hnd : (nodes.map Node.id).Nodup)
    (v : String) (l : String) :
    l ∈ (mergeBucket nodes (bucketOf nodes v)).labels ↔
      ∃ n ∈ membersOf nodes v, l ∈ n.labels := by
  rw [mergeBucket_eq_fold nodes hnd v, foldl_mergeNodeStep_labels]
  simp

theorem mergeBucket_props (nodes : List Node) (hnd : (nodes.map Node.id).Nodup)
    (hprops : ∀ n ∈ nodes, (n.properties.map Prod.fst).Nodup) (v : String)
    (p : String) :
    assocGet (mergeBucket nodes (bucketOf nodes v)).properties p =
      specPropMerge ((membersOf nodes v).filterMap
        (fun n => assocGet n.properties p)) := by
  rw [mergeBucket_eq_fold nodes hnd v,
    foldl_mergeNodeStep_props _ _ _
      (fun n hn => hprops n ((mem_membersOf nodes v n).mp hn).1),
    show assocGet (⟨minByInt (bucketOf nodes v), [], []⟩ : Node).properties p =
      none from rfl,
    foldl_propCombine_none]

theorem mergeBucket_name (nodes : List Node) (hnd : (nodes.map Node.id).Nodup)
    (hprops : ∀ n ∈ nodes, (n.properties.map Prod.fst).Nodup) (v : String)
    (hne : membersOf nodes v ≠ []) :
    goodName (mergeBucket nodes (bucketOf nodes v)) = some v := by
  have hvals : ∀ n ∈ membersOf nodes v, assocGet n.properties "name" = some v := by
    intro n hn
    exact goodName_get n v ((mem_membersOf nodes v n).mp hn).2
  have hv0 : v ≠ "" := by
    obtain ⟨n, hn⟩ := List.exists_mem_of_ne_nil _ hne
    exact goodName_ne_empty n v ((mem_membersOf nodes v n).mp hn).2
  have hget := mergeBucket_props nodes hnd hprops v "name"
  have hfm : (membersOf nodes v).filterMap (fun n => assocGet n.properties "name") =
      (membersOf nodes v).map (fun _ => v) := by
    generalize hms : membersOf nodes v = ms at hvals
    clear hms hne hget
    induction ms with
    | nil => rfl
    | cons m rest ih =>
      rw [List.filterMap_cons, hvals m (List.mem_cons_self _ _), List.map_cons]
      rw [ih (fun n hn => hvals n (List.mem_cons_of_mem _ hn))]
  rw [hfm] at hget
  obtain ⟨n, hn⟩ := List.exists_mem_of_ne_nil _ hne
  have hname : assocGet (mergeBucket nodes (bucketOf nodes v)).properties "name" =
      some v := by
    rw [hget]
    cases hms : membersOf nodes v with
    | nil => exact absurd hms hne
    | cons m rest =>
      rw [List.map_cons]
      have hall : (rest.map fun _ => v).all (· == v) = true := by
        rw [List.all_eq_true]
        intro x hx
        obtain ⟨y, _, rfl⟩ := List.mem_map.mp hx
        exact beq_self_eq_true v
      simp [specPropMerge, hall]
  simp [goodName, hname, hv0]

/-! ### Output decomposition of remove_duplicates_in_kg -/

theorem foldl_mergedDict (f : List String → Node)
    (mapping : List (String × List String)) (d : List (String × Node))
    (hnd : ((mapping.filter (fun kv => 1 < kv.2.length)).map
      (fun kv => minByInt kv.2)).Nodup)
    (hdis : ∀ kv ∈ mapping, 1 < kv.2.length → minByInt kv.2 ∉ d.map Prod.fst) :
    mapping.foldl (fun d kv =>
        if 1 < kv.2.length then assocSet d (minByInt kv.2) (f kv.2) else d) d =
      d ++ (mapping.filter (fun kv => 1 < kv.2.length)).map
        (fun kv => (minByInt kv.2, f kv.2)) := by
  induction mapping generalizing d with
  | nil => simp
  | cons kv rest ih =>
    rw [List.foldl_cons]
    by_cases hbig : 1 < kv.2.length
    · rw [if_pos hbig]
      rw [List.filter_cons_of_pos (by simpa using hbig)] at hnd ⊢
      rw [List.map_cons, List.nodup_cons] at hnd
      rw [assocSet_not_mem _ _ _ (hdis kv (List.mem_cons_self _ _) hbig)]
      rw [List.map_cons, ih _ hnd.2 ?hdis2]
      · rw [List.append_assoc, List.singleton_append]
      case hdis2 =>
        intro kv' hkv' hbig'
        rw [List.map_append]
        intro hmem
        rcases List.mem_append.mp hmem with hm | hm
        · exact hdis kv' (List.mem_cons_of_mem _ hkv') hbig' hm
        · simp only [List.map_cons, List.map_nil, List.mem_singleton] at hm
          refine hnd.1 ?_
          rw [← hm]
          exact List.mem_map_of_mem _
            (List.mem_filter.mpr ⟨hkv', by simpa using hbig'⟩)
    · rw [if_neg hbig]
      rw [List.filter_cons_of_neg (by simpa using hbig)] at hnd ⊢
      exact ih _ hnd (fun kv' h hb => hdis kv' (List.mem_cons_of_mem _ h) hb)

theorem bigNames_nodup (nodes : List Node) : (bigNames nodes).Nodup :=
  (freshKeys_nodup nodes []).filter _

theorem mem_bigNames (nodes : List Node) (v : String) :
    v ∈ bigNames nodes ↔ 1 < (bucketOf nodes v).length := by
  unfold bigNames
  rw [List.mem_filter]
  constructor
  · rintro ⟨_, hb⟩
    exact of_decide_eq_true hb
  · intro hb
    refine ⟨?_, decide_eq_true hb⟩
    have hne : membersOf nodes v ≠ [] := by
      intro h0
      rw [bucketOf_length, h0] at hb
      simp at hb
    obtain ⟨n, hn⟩ := List.exists_mem_of_ne_nil _ hne
    obtain ⟨hn1, hn2⟩ := (mem_membersOf nodes v n).mp hn
    exact freshKeys_complete nodes [] n v hn1 hn2 (by simp)

theorem bucketOf_ne_nil_of_big (nodes : List Node) (v : String)
    (hb : 1 < (bucketOf nodes v).length) : bucketOf nodes v ≠ [] := by
  intro h0
  rw [h0] at hb
  simp at hb

theorem bigMins_nodup (nodes : List Node) (hnd : (nodes.map Node.id).Nodup) :
    (((buildMapping nodes).filter (fun kv => 1 < kv.2.length)).map
      (fun kv => minByInt kv.2)).Nodup := by
  rw [buildMapping_eq, List.filter_map, List.map_map]
  apply List.Nodup.map_on
  · intro x hx y hy hxy
    simp only [Function.comp_apply] at hxy
    obtain ⟨hx1, hx2⟩ := List.mem_filter.mp hx
    obtain ⟨hy1, hy2⟩ := List.mem_filter.mp hy
    simp only [Function.comp_apply] at hx2 hy2
    have hbx : 1 < (bucketOf nodes x).length := of_decide_eq_true hx2
    have hby : 1 < (bucketOf nodes y).length := of_decide_eq_true hy2
    by_contra hne
    have hmx := minByInt_mem (bucketOf nodes x) (bucketOf_ne_nil_of_big _ _ hbx)
    have hmy := minByInt_mem (bucketOf nodes y) (bucketOf_ne_nil_of_big _ _ hby)
    exact bucketOf_disjoint nodes hnd x y hne _ hmx (hxy ▸ hmy)
  · exact (freshKeys_nodup nodes []).filter _

theorem dedup_nodes_eq (g : Graph) (hnd : (g.nodes.map Node.id).Nodup) :
    (remove_duplicates_in_kg g).nodes =
      g.nodes.filter
        (fun n => !((duplicateIds (buildMapping g.nodes)).contains n.id)) ++
        (bigNames g.nodes).map (fun v => mergeBucket g.nodes (bucketOf g.nodes v)) := by
  simp only [remove_duplicates_in_kg]
  congr 1
  rw [foldl_mergedDict (fun ids => mergeBucket g.nodes ids) _ []
    (bigMins_nodup g.nodes hnd) (by intro kv _ _; simp)]
  rw [List.nil_append, List.map_map, buildMapping_eq, List.filter_map, List.map_map]
  have hfc : List.filter
      ((fun kv : String × List String => decide (1 < kv.2.length)) ∘
        fun v => (v, bucketOf g.nodes v)) (freshKeys [] g.nodes) = bigNames g.nodes := by
    unfold bigNames
    apply List.filter_congr
    intro v _
    simp
  rw [hfc]
  apply List.map_congr_left
  intro v _
  simp

theorem dedup_rels_eq (g : Graph) :
    (remove_duplicates_in_kg g).relationships =
      g.relationships.map (rewriteRel (buildMapping g.nodes)) := rfl

theorem mem_kept (g : Graph) (n : Node) :
    (n ∈ g.nodes.filter
        (fun m => !((duplicateIds (buildMapping g.nodes)).contains m.id))) ↔
      n ∈ g.nodes ∧ n.id ∉ duplicateIds (buildMapping g.nodes) := by
  rw [List.mem_filter]
  simp [List.elem_eq_mem]

/-! ### Claim C3: deduplication postcondition -/

theorem kept_filter_name_nil (g : Graph) (v : String)
    (hbig : 1 < (bucketOf g.nodes v).length) :
    ((g.nodes.filter
        (fun m => !((duplicateIds (buildMapping g.nodes)).contains m.id))).filter
      (fun n => decide (goodName n = some v))) = [] := by
  apply List.filter_eq_nil_iff.mpr
  intro n hn hgn
  obtain ⟨hn1, hn2⟩ := (mem_kept g n).mp hn
  have hgv : goodName n = some v := of_decide_eq_true hgn
  apply hn2
  rw [mem_duplicateIds]
  exact ⟨v, hbig,
    (mem_bucketOf _ _ _).mpr ⟨n, (mem_membersOf _ _ _).mpr ⟨hn1, hgv⟩, rfl⟩⟩

theorem filter_eq_singleton_of_nodup (l : List String) (hnd : l.Nodup) (v : String)
    (hv : v ∈ l) : l.filter (fun w => decide (w = v)) = [v] := by
  induction l with
  | nil => cases hv
  | cons x rest ih =>
    rw [List.nodup_cons] at hnd
    rcases List.mem_cons.mp hv with rfl | hmem
    · rw [List.filter_cons_of_pos (by simp)]
      congr 1
      apply List.filter_eq_nil_iff.mpr
      intro w hw hww
      have hwx := of_decide_eq_true hww
      subst hwx
      exact hnd.1 hw
    · have hxv : x ≠ v := by
        intro h
        subst h
        exact hnd.1 hmem
      rw [List.filter_cons_of_neg (by simp [hxv])]
      exact ih hnd.2 hmem

theorem merged_filter_name (g : Graph) (hnd : (g.nodes.map Node.id).Nodup)
    (hprops : ∀ n ∈ g.nodes, (n.properties.map Prod.fst).Nodup) (v : String)
    (hbig : 1 < (bucketOf g.nodes v).length) :
    (((bigNames g.nodes).map
        (fun w => mergeBucket g.nodes (bucketOf g.nodes w))).filter
      (fun n => decide (goodName n = some v))) =
      [mergeBucket g.nodes (bucketOf g.nodes v)] := by
  rw [List.filter_map]
  have hfc : (bigNames g.nodes).filter
      ((fun n => decide (goodName n = some v)) ∘
        fun w => mergeBucket g.nodes (bucketOf g.nodes w)) =
      (bigNames g.nodes).filter (fun w => decide (w = v)) := by
    apply List.filter_congr
    intro w hw
    have hbw : 1 < (bucketOf g.nodes w).length := (mem_bigNames _ _).mp hw
    have hnew : membersOf g.nodes w ≠ [] := by
      intro h0
      rw [bucketOf_length, h0] at hbw
      simp at hbw
    simp only [Function.comp_apply]
    rw [mergeBucket_name g.nodes hnd hprops w hnew]
    simp
  rw [hfc,
    filter_eq_singleton_of_nodup _ (bigNames_nodup _) v ((mem_bigNames _ _).mpr hbig)]
  simp

/-- C3: in a well-formed graph, for a non-empty identifying value shared by at
least two nodes, after deduplication exactly one node with that value remains;
its id is the integer-lowest id of the bucket, its labels are exactly the
union of the members' labels, and each property is the first-seen value,
cleared to the empty string as soon as a later member disagrees. -/
theorem C3_dedup_postcondition (g : Graph) (hwf : WFGraph g) (v : String)
    (hb : 2 ≤ (membersOf g.nodes v).length) :
    ∃ m, ((remove_duplicates_in_kg g).nodes.filter
        (fun n => decide (goodName n = some v))) = [m] ∧
      m.id ∈ bucketOf g.nodes v ∧
      (∀ i ∈ bucketOf g.nodes v, strToNat m.id ≤ strToNat i) ∧
      (∀ l, l ∈ m.labels ↔ ∃ n ∈ membersOf g.nodes v, l ∈ n.labels) ∧
      (∀ p, assocGet m.properties p =
        specPropMerge ((membersOf g.nodes v).filterMap
          (fun n => assocGet n.properties p))) := by
  obtain ⟨hnd, hdig, hprops⟩ := hwf
  have hbig : 1 < (bucketOf g.nodes v).length := by
    rw [bucketOf_length]
    omega
  refine ⟨mergeBucket g.nodes (bucketOf g.nodes v), ?_, ?_, ?_, ?_, ?_⟩
  · rw [dedup_nodes_eq g hnd, List.filter_append, kept_filter_name_nil g v hbig,
      List.nil_append, merged_filter_name g hnd hprops v hbig]
  · rw [mergeBucket_id g.nodes hnd v]
    exact minByInt_mem _ (bucketOf_ne_nil_of_big _ _ hbig)
  · intro i hi
    rw [mergeBucket_id g.nodes hnd v]
    exact minByInt_le _ i hi
  · intro l
    exact mergeBucket_labels g.nodes hnd v l
  · intro p
    exact mergeBucket_props g.nodes hnd hprops v p

/-- Witness for C3 at the spec's Paris scenario (conflicting population
values). -/
theorem C3_dedup_postcondition_witness :
    (WFGraph parisG ∧ 2 ≤ (membersOf parisG.nodes "Paris").length) ∧
      ∃ m, ((remove_duplicates_in_kg parisG).nodes.filter
          (fun n => decide (goodName n = some "Paris"))) = [m] ∧
        m.id ∈ bucketOf parisG.nodes "Paris" ∧
        (∀ i ∈ bucketOf parisG.nodes "Paris", strToNat m.id ≤ strToNat i) ∧
        (∀ l, l ∈ m.labels ↔ ∃ n ∈ membersOf parisG.nodes "Paris", l ∈ n.labels) ∧
        (∀ p, assocGet m.properties p =
          specPropMerge ((membersOf parisG.nodes "Paris").filterMap
            (fun n => assocGet n.properties p))) :=
  ⟨⟨by decide, by decide⟩,
    C3_dedup_postcondition parisG (by decide) "Paris" (by decide)⟩

/-! ### Claim C4: idempotence -/

theorem dedup_members_le_one (g : Graph) (hwf : WFGraph g) (v : String) :
    (membersOf (remove_duplicates_in_kg g).nodes v).length ≤ 1 := by
  obtain ⟨hnd, hdig, hprops⟩ := hwf
  unfold membersOf
  rw [dedup_nodes_eq g hnd, List.filter_append, List.length_append]
  by_cases hbig : 1 < (bucketOf g.nodes v).length
  · rw [kept_filter_name_nil g v hbig, merged_filter_name g hnd hprops v hbig]
    simp
  · have h1 : ((g.nodes.filter
        (fun m => !((duplicateIds (buildMapping g.nodes)).contains m.id))).filter
        (fun n => decide (goodName n = some v))).length ≤
        (membersOf g.nodes v).length := by
      apply List.Sublist.length_le
      exact List.Sublist.filter _ (List.filter_sublist _)
    have h2 : (((bigNames g.nodes).map
        (fun w => mergeBucket g.nodes (bucketOf g.nodes w))).filter
        (fun n => decide (goodName n = some v))) = [] := by
      rw [List.filter_map]
      have hfe : (bigNames g.nodes).filter
          ((fun n => decide (goodName n = some v)) ∘
            fun w => mergeBucket g.nodes (bucketOf g.nodes w)) = [] := by
        apply List.filter_eq_nil_iff.mpr
        intro w hw hgw
        have hbw := (mem_bigNames _ _).mp hw
        have hnew : membersOf g.nodes w ≠ [] := by
          intro h0
          rw [bucketOf_length, h0] at hbw
          simp at hbw
        simp only [Function.comp_apply] at hgw
        rw [mergeBucket_name g.nodes hnd hprops w hnew] at hgw
        have hwv : w = v := by simpa using of_decide_eq_true hgw
        subst hwv
        exact hbig hbw
      rw [hfe]
      rfl
    have h3 : (membersOf g.nodes v).length ≤ 1 := by
      rw [← bucketOf_length]
      omega
    rw [h2]
    simp only [List.length_nil]
    omega

theorem dedup_noop (h : Graph)
    (hsmall : ∀ v, (membersOf h.nodes v).length ≤ 1) :
    remove_duplicates_in_kg h = h := by
  obtain ⟨ns, rs⟩ := h
  simp only [Graph.nodes] at hsmall
  have hmap : ∀ kv ∈ buildMapping ns, ¬ 1 < kv.2.length := by
    intro kv hkv hlt
    obtain ⟨h1, h2⟩ := mem_buildMapping _ _ hkv
    rw [h2, bucketOf_length] at hlt
    have := hsmall kv.1
    omega
  have hfilter : (buildMapping ns).filter (fun kv => 1 < kv.2.length) = [] := by
    apply List.filter_eq_nil_iff.mpr
    intro kv hkv
    simpa using hmap kv hkv
  have hdup : duplicateIds (buildMapping ns) = [] := by
    unfold duplicateIds
    rw [hfilter]
    rfl
  have hmerged : ∀ (m : List (String × List String)),
      (∀ kv ∈ m, ¬ 1 < kv.2.length) → ∀ (d : List (String × Node)),
      m.foldl (fun d kv => if 1 < kv.2.length then
        assocSet d (minByInt kv.2) (mergeBucket ns kv.2) else d) d = d := by
    intro m hm
    induction m with
    | nil => intro d; rfl
    | cons kv rest ih =>
      intro d
      rw [List.foldl_cons, if_neg (hm kv (List.mem_cons_self _ _))]
      exact ih (fun x hx => hm x (List.mem_cons_of_mem _ hx)) d
  have hrwgen : ∀ (m : List (String × List String)),
      (∀ kv ∈ m, ¬ 1 < kv.2.length) → ∀ (r : Rel),
      m.foldl (fun r' kv =>
        if 1 < kv.2.length then redirectEnd kv (redirectStart kv r')
        else r') r = r := by
    intro m hm
    induction m with
    | nil => intro r; rfl
    | cons kv rest ih =>
      intro r
      rw [List.foldl_cons, if_neg (hm kv (List.mem_cons_self _ _))]
      exact ih (fun x hx => hm x (List.mem_cons_of_mem _ hx)) r
  show remove_duplicates_in_kg ⟨ns, rs⟩ = ⟨ns, rs⟩
  simp only [remove_duplicates_in_kg]
  rw [hmerged _ hmap, hdup]
  congr 1
  · rw [List.map_nil, List.append_nil]
    apply List.filter_eq_self.mpr
    intro a _
    rfl
  · have : rs.map (rewriteRel (buildMapping ns)) = rs.map id := by
      apply List.map_congr_left
      intro r _
      exact hrwgen _ hmap r
    rw [this, List.map_id]

/-- C4: on a well-formed graph, node deduplication is idempotent: running
`remove_duplicates_in_kg` on its own output changes nothing, because every
identifying-value bucket of the output has size at most one. -/
theorem C4_dedup_idempotent (g : Graph) (hwf : WFGraph g) :
    remove_duplicates_in_kg (remove_duplicates_in_kg g) =
      remove_duplicates_in_kg g :=
  dedup_noop _ (dedup_members_le_one g hwf)

/-- Witness for C4 at the Paris scenario graph. -/
theorem C4_dedup_idempotent_witness :
    WFGraph parisG ∧
      remove_duplicates_in_kg (remove_duplicates_in_kg parisG) =
        remove_duplicates_in_kg parisG :=
  ⟨by decide, C4_dedup_idempotent parisG (by decide)⟩

/-! ### Claim C10: unnamed nodes are untouched -/

theorem redirectStart_endNode (kv : String × List String) (r : Rel) :
    (redirectStart kv r).endNode = r.endNode := by
  unfold redirectStart
  by_cases h : kv.2.contains r.startNode = true
  · rw [if_pos h]
  · rw [if_neg h]

theorem redirectEnd_startNode (kv : String × List String) (r : Rel) :
    (redirectEnd kv r).startNode = r.startNode := by
  unfold redirectEnd
  by_cases h : kv.2.contains r.endNode = true
  · rw [if_pos h]
  · rw [if_neg h]

theorem redirectStart_fixed (kv : String × List String) (r : Rel) (x : String)
    (hx : x ∉ kv.2) (hs : r.startNode = x) : redirectStart kv r = r := by
  unfold redirectStart
  rw [if_neg]
  rw [hs]
  simp only [List.elem_eq_mem, decide_eq_true_eq]
  exact hx

theorem redirectEnd_fixed (kv : String × List String) (r : Rel) (x : String)
    (hx : x ∉ kv.2) (he : r.endNode = x) : redirectEnd kv r = r := by
  unfold redirectEnd
  rw [if_neg]
  rw [he]
  simp only [List.elem_eq_mem, decide_eq_true_eq]
  exact hx

theorem rewriteRel_start_fixed (mapping : List (String × List String)) (r : Rel)
    (x : String) (hx : ∀ kv ∈ mapping, x ∉ kv.2) (hs : r.startNode = x) :
    (rewriteRel mapping r).startNode = x := by
  unfold rewriteRel
  induction mapping generalizing r with
  | nil => exact hs
  | cons kv rest ih =>
    rw [List.foldl_cons]
    apply ih _ (fun k hk => hx k (List.mem_cons_of_mem _ hk))
    by_cases hbig : 1 < kv.2.length
    · rw [if_pos hbig, redirectEnd_startNode,
        redirectStart_fixed kv r x (hx kv (List.mem_cons_self _ _)) hs]
      exact hs
    · rw [if_neg hbig]
      exact hs

theorem rewriteRel_end_fixed (mapping : List (String × List String)) (r : Rel)
    (x : String) (hx : ∀ kv ∈ mapping, x ∉ kv.2) (he : r.endNode = x) :
    (rewriteRel mapping r).endNode = x := by
  unfold rewriteRel
  induction mapping generalizing r with
  | nil => exact he
  | cons kv rest ih =>
    rw [List.foldl_cons]
    apply ih _ (fun k hk => hx k (List.mem_cons_of_mem _ hk))
    by_cases hbig : 1 < kv.2.length
    · rw [if_pos hbig,
        redirectEnd_fixed kv (redirectStart kv r) x (hx kv (List.mem_cons_self _ _))
          (by rw [redirectStart_endNode]; exact he),
        redirectStart_endNode]
      exact he
    · rw [if_neg hbig]
      exact he

/-- C10: a node without a truthy identifying value is never placed in any
deduplication bucket; it survives deduplication unchanged in the output node
list, and any relationship endpoint equal to its id is left unrewritten. -/
theorem C10_unnamed_untouched (g : Graph) (hnd : (g.nodes.map Node.id).Nodup)
    (n : Node) (hn : n ∈ g.nodes) (hname : goodName n = none) :
    (∀ kv ∈ buildMapping g.nodes, n.id ∉ kv.2) ∧
      n ∈ (remove_duplicates_in_kg g).nodes ∧
      (remove_duplicates_in_kg g).relationships =
        g.relationships.map (rewriteRel (buildMapping g.nodes)) ∧
      ∀ r ∈ g.relationships,
        (r.startNode = n.id →
          (rewriteRel (buildMapping g.nodes) r).startNode = n.id) ∧
        (r.endNode = n.id →
          (rewriteRel (buildMapping g.nodes) r).endNode = n.id) := by
  have hnotb : ∀ v, n.id ∉ bucketOf g.nodes v := by
    intro v hmem
    obtain ⟨m, hm, hid⟩ := (mem_bucketOf _ _ _).mp hmem
    obtain ⟨hm1, hm2⟩ := (mem_membersOf _ _ _).mp hm
    have hmn : m = n := node_id_inj g.nodes hnd m n hm1 hn hid
    subst hmn
    rw [hname] at hm2
    cases hm2
  have hkv : ∀ kv ∈ buildMapping g.nodes, n.id ∉ kv.2 := by
    intro kv hkv
    obtain ⟨h1, h2⟩ := mem_buildMapping _ _ hkv
    rw [h2]
    exact hnotb kv.1
  refine ⟨hkv, ?_, dedup_rels_eq g, ?_⟩
  · rw [dedup_nodes_eq g hnd]
    apply List.mem_append_left
    rw [mem_kept]
    refine ⟨hn, ?_⟩
    intro hdup
    obtain ⟨v, _, hmem⟩ := (mem_duplicateIds _ _).mp hdup
    exact hnotb v hmem
  · intro r _
    exact ⟨rewriteRel_start_fixed _ r n.id hkv, rewriteRel_end_fixed _ r n.id hkv⟩

/-- Witness for C10 at a graph with a Paris duplicate pair and an unnamed
node "3" referenced by a relationship. -/
theorem C10_unnamed_untouched_witness :
    ((unnamedG.nodes.map Node.id).Nodup ∧
      (⟨"3", ["Misc"], [("note", "x")]⟩ : Node) ∈ unnamedG.nodes ∧
      goodName ⟨"3", ["Misc"], [("note", "x")]⟩ = none) ∧
      ((∀ kv ∈ buildMapping unnamedG.nodes,
          (⟨"3", ["Misc"], [("note", "x")]⟩ : Node).id ∉ kv.2) ∧
        (⟨"3", ["Misc"], [("note", "x")]⟩ : Node) ∈
          (remove_duplicates_in_kg unnamedG).nodes ∧
        (remove_duplicates_in_kg unnamedG).relationships =
          unnamedG.relationships.map (rewriteRel (buildMapping unnamedG.nodes)) ∧
        ∀ r ∈ unnamedG.relationships,
          (r.startNode = (⟨"3", ["Misc"], [("note", "x")]⟩ : Node).id →
            (rewriteRel (buildMapping unnamedG.nodes) r).startNode =
              (⟨"3", ["Misc"], [("note", "x")]⟩ : Node).id) ∧
          (r.endNode = (⟨"3", ["Misc"], [("note", "x")]⟩ : Node).id →
            (rewriteRel (buildMapping unnamedG.nodes) r).endNode =
              (⟨"3", ["Misc"], [("note", "x")]⟩ : Node).id)) :=
  ⟨⟨by decide, by decide, by decide⟩,
    C10_unnamed_untouched unnamedG (by decide) ⟨"3", ["Misc"], [("note", "x")]⟩
      (by decide) (by decide)⟩

end KGSpec
